import Mathlib

/-!
Verification development for the teal-language editor-integration service
(vscode-teal).  The definitions below are shallow embeddings of the
TypeScript sources:

  * namespace Teal        — src/server/teal.ts (scope resolver, binary
    search over the compiler type report, type-string prettifier);
  * namespace TSDoc       — src/server/tree-sitter-document.ts and the
    intellisense module (syntax-tree queries, edit deltas, chain-segment
    extraction);
  * namespace Diag        — the diagnostics translator
    (TealLS.validateTextDocument, line-sectioned variant).

JavaScript strings are modelled as List Char, JavaScript numbers used as
integers are modelled as Int (positions in the compiler report) or Nat
(tree positions and byte offsets).  A JavaScript Map / object is modelled
as a function String → Option _, updated functionally.  The unbounded
while-loop of the scope walk is modelled with an explicit fuel parameter
returning Option (none = the loop did not finish within the fuel bound);
the fuel supplied by symbolsInScope is sufficient whenever the walk
terminates at all, see the termination theorem for C10.
-/

namespace Teal

/-- One entry of the symbols array of the compiler type report:
`[number, number, string, TypeId]` in teal.ts. -/
structure SymbolTuple where
  y : Int
  x : Int
  identifier : String
  typeId : Int
deriving Repr, DecidableEq

/-- The scope-resolver result value (interface Symbol in teal.ts); the
optional y/x are absent for entries seeded from globals. -/
structure ScopeSymbol where
  y : Option Int
  x : Option Int
  identifier : String
  typeId : Int
deriving Repr, DecidableEq

/-- The part of the compiler type report used by symbolsInScope
(the byPos / types tables are not consulted by it). -/
structure TypeReport where
  symbols : List SymbolTuple
  globals : List (String × Int)
deriving Repr

/-- teal.ts function le: is position (vy, vx) at-or-before (y, x),
comparing line first, then column. -/
def le (vy vx y x : Int) : Prop :=
  vy < y ∨ (vy = y ∧ vx ≤ x)

instance (vy vx y x : Int) : Decidable (le vy vx y x) := by
  unfold le; infer_instance

/-- Array indexing `symbols[i]`; only ever used with in-range indices in
the algorithms below. -/
def getSym (symbols : List SymbolTuple) (i : Int) : SymbolTuple :=
  symbols.getD i.toNat ⟨0, 0, "", 0⟩

lemma mid_lower {a b : Int} (h : a ≤ b) : a ≤ (a + b) / 2 := by
  rw [Int.le_ediv_iff_mul_le (by norm_num : (0 : Int) < 2)]
  omega

lemma mid_upper {a b : Int} (h : a ≤ b) : (a + b) / 2 ≤ b := by
  have : (a + b) / 2 < b + 1 := by
    rw [Int.ediv_lt_iff_lt_mul (by norm_num : (0 : Int) < 2)]
    omega
  omega

/-- The loop of teal.ts function find, as a recursion on the
shrinking interval [left, right]. -/
def findAux (symbols : List SymbolTuple) (y x : Int) (left right : Int) : Int :=
  if hlr : left ≤ right then
    if le (getSym symbols ((left + right) / 2)).y (getSym symbols ((left + right) / 2)).x y x then
      if (left + right) / 2 = (symbols.length : Int) - 1 then
        (left + right) / 2
      else if ¬ le (getSym symbols ((left + right) / 2 + 1)).y
                   (getSym symbols ((left + right) / 2 + 1)).x y x then
        (left + right) / 2
      else
        findAux symbols y x ((left + right) / 2 + 1) right
    else
      findAux symbols y x left ((left + right) / 2 - 1)
  else
    -1
termination_by (right + 1 - left).toNat
decreasing_by
  · have h1 := mid_lower hlr
    have h2 := mid_upper hlr
    omega
  · have h1 := mid_lower hlr
    have h2 := mid_upper hlr
    omega

/-- teal.ts function find: binary search for the rightmost symbols entry
at-or-before (y, x); -1 if there is none. -/
def find (symbols : List SymbolTuple) (y x : Int) : Int :=
  findAux symbols y x 0 ((symbols.length : Int) - 1)

/-- The symbols array of a type report is sorted ascending by
(line, column); see spec section 3 (Data Model). -/
def SortedSyms (symbols : List SymbolTuple) : Prop :=
  List.Pairwise (fun a b => le a.y a.x b.y b.x) symbols

instance (symbols : List SymbolTuple) : Decidable (SortedSyms symbols) := by
  unfold SortedSyms; infer_instance

lemma le_trans_query {ay ax cy cx y x : Int}
    (h1 : le ay ax cy cx) (h2 : le cy cx y x) : le ay ax y x := by
  unfold le at *
  omega

lemma sorted_mono (symbols : List SymbolTuple) (y x : Int) (hs : SortedSyms symbols)
    {i j : Int} (h0 : 0 ≤ i) (hij : i ≤ j) (hj : j < (symbols.length : Int))
    (hlej : le (getSym symbols j).y (getSym symbols j).x y x) :
    le (getSym symbols i).y (getSym symbols i).x y x := by
  rcases eq_or_lt_of_le hij with rfl | hlt
  · exact hlej
  · have hjN : j.toNat < symbols.length := by omega
    have hiN : i.toNat < symbols.length := by omega
    have hR := (List.pairwise_iff_get.mp hs) ⟨i.toNat, hiN⟩ ⟨j.toNat, hjN⟩ (by
      simp only [Fin.mk_lt_mk]
      omega)
    unfold getSym at *
    rw [List.getD_eq_getElem _ _ hiN]
    rw [List.getD_eq_getElem _ _ hjN] at hlej
    simp only [List.get_eq_getElem] at hR
    exact le_trans_query hR hlej

lemma findAux_bounds (symbols : List SymbolTuple) (y x : Int) :
    ∀ left right : Int, 0 ≤ left → right ≤ (symbols.length : Int) - 1 →
      -1 ≤ findAux symbols y x left right ∧
        findAux symbols y x left right < (symbols.length : Int) := by
  intro left right
  induction left, right using findAux.induct symbols y x with
  | case1 left right hlr hle hlast =>
    intro hl hr
    rw [findAux]
    simp only [dif_pos hlr, if_pos hle, if_pos hlast]
    have h1 := mid_lower hlr
    have h2 := mid_upper hlr
    omega
  | case2 left right hlr hle hlast hnext =>
    intro hl hr
    rw [findAux]
    simp only [dif_pos hlr, if_pos hle, if_neg hlast, if_pos hnext]
    have h1 := mid_lower hlr
    have h2 := mid_upper hlr
    omega
  | case3 left right hlr hle hlast hnext ih =>
    intro hl hr
    rw [findAux]
    simp only [dif_pos hlr, if_pos hle, if_neg hlast, if_neg hnext]
    have h1 := mid_lower hlr
    exact ih (by omega) hr
  | case4 left right hlr hle ih =>
    intro hl hr
    rw [findAux]
    simp only [dif_pos hlr, if_neg hle]
    have h2 := mid_upper hlr
    exact ih hl (by omega)
  | case5 left right hlr =>
    intro hl hr
    rw [findAux]
    simp only [dif_neg hlr]
    omega

lemma findAux_none (symbols : List SymbolTuple) (y x : Int)
    (hnone : ∀ i : Int, 0 ≤ i → i < symbols.length →
      ¬ le (getSym symbols i).y (getSym symbols i).x y x) :
    ∀ left right : Int, 0 ≤ left → right ≤ (symbols.length : Int) - 1 →
      findAux symbols y x left right = -1 := by
  intro left right
  induction left, right using findAux.induct symbols y x with
  | case1 left right hlr hle hlast =>
    intro hl hr
    have h1 := mid_lower hlr
    have h2 := mid_upper hlr
    exact absurd hle (hnone _ (by omega) (by omega))
  | case2 left right hlr hle hlast hnext =>
    intro hl hr
    have h1 := mid_lower hlr
    have h2 := mid_upper hlr
    exact absurd hle (hnone _ (by omega) (by omega))
  | case3 left right hlr hle hlast hnext ih =>
    intro hl hr
    have h1 := mid_lower hlr
    have h2 := mid_upper hlr
    exact absurd hle (hnone _ (by omega) (by omega))
  | case4 left right hlr hle ih =>
    intro hl hr
    rw [findAux]
    simp only [dif_pos hlr, if_neg hle]
    have h2 := mid_upper hlr
    exact ih hl (by omega)
  | case5 left right hlr =>
    intro hl hr
    rw [findAux]
    simp only [dif_neg hlr]

lemma findAux_max (symbols : List SymbolTuple) (y x : Int) (hs : SortedSyms symbols)
    (a : Int) (h0a : 0 ≤ a) (haLen : a < (symbols.length : Int))
    (haLe : le (getSym symbols a).y (getSym symbols a).x y x)
    (haMax : ∀ j : Int, a < j → j < (symbols.length : Int) →
      ¬ le (getSym symbols j).y (getSym symbols j).x y x) :
    ∀ left right : Int, 0 ≤ left → left ≤ a → a ≤ right →
      right ≤ (symbols.length : Int) - 1 →
      findAux symbols y x left right = a := by
  intro left right
  induction left, right using findAux.induct symbols y x with
  | case1 left right hlr hle hlast =>
    intro hl hla har hr
    rw [findAux]
    simp only [dif_pos hlr, if_pos hle, if_pos hlast]
    have h1 := mid_lower hlr
    have h2 := mid_upper hlr
    by_contra hne
    rcases lt_or_gt_of_ne hne with hlt | hgt
    · -- mid < a contradicts a ≤ right ≤ len - 1 = mid
      omega
    · exact haMax _ (by omega) (by omega) hle
  | case2 left right hlr hle hlast hnext =>
    intro hl hla har hr
    rw [findAux]
    simp only [dif_pos hlr, if_pos hle, if_neg hlast, if_pos hnext]
    have h1 := mid_lower hlr
    have h2 := mid_upper hlr
    by_contra hne
    rcases lt_or_gt_of_ne hne with hlt | hgt
    · -- mid < a: then mid + 1 ≤ a and sortedness forces le at mid + 1
      exact hnext (sorted_mono symbols y x hs (by omega) (by omega) haLen haLe)
    · exact haMax _ (by omega) (by omega) hle
  | case3 left right hlr hle hlast hnext ih =>
    intro hl hla har hr
    rw [findAux]
    simp only [dif_pos hlr, if_pos hle, if_neg hlast, if_neg hnext]
    push_neg at hnext
    have h1 := mid_lower hlr
    have h2 := mid_upper hlr
    have hm1 : (left + right) / 2 + 1 ≤ a := by
      by_contra hgt
      exact haMax _ (by omega) (by omega) hnext
    exact ih (by omega) hm1 har hr
  | case4 left right hlr hle ih =>
    intro hl hla har hr
    rw [findAux]
    simp only [dif_pos hlr, if_neg hle]
    have h1 := mid_lower hlr
    have h2 := mid_upper hlr
    have hma : a ≤ (left + right) / 2 - 1 := by
      by_contra hgt
      exact hle (sorted_mono symbols y x hs (by omega) (by omega) haLen haLe)
    exact ih hl hla hma (by omega)
  | case5 left right hlr =>
    intro hl hla har hr
    omega

/-- The result map of symbolsInScope (a JavaScript Map keyed by
identifier), modelled as a function. -/
def SMap : Type := String → Option ScopeSymbol

/-- Map.set: functional update. -/
def setSym (m : SMap) (k : String) (v : ScopeSymbol) : SMap :=
  fun s => if s = k then some v else m s

/-- Seeding the result with all globals entries, in iteration order
(later duplicate keys overwrite earlier ones, as for a JS object). -/
def globalsSeed (globals : List (String × Int)) : SMap :=
  globals.foldl (fun m p => setSym m p.1 ⟨none, none, p.1, p.2⟩) (fun _ => none)

/-- The scope-open sentinel identifier (an at-sign followed by an opening
curly brace). -/
def openMarker : String := "@\x7b"

/-- The scope-close sentinel identifier (an at-sign followed by a closing
curly brace). -/
def closeMarker : String := "@\x7d"

/-- The while-loop of symbolsInScope, with explicit fuel; none means the
loop did not finish within the given fuel.  A scope-close marker jumps to
the index stored in its typeId slot; a scope-open marker just steps back;
a normal entry records identifier → symbol and steps back. -/
def walkAux (symbols : List SymbolTuple) : Nat → Int → SMap → Option SMap
  | 0, symIndex, result => if symIndex < 0 then some result else none
  | fuel + 1, symIndex, result =>
    if symIndex < 0 then some result
    else if (getSym symbols symIndex).identifier = openMarker then
      walkAux symbols fuel (symIndex - 1) result
    else if (getSym symbols symIndex).identifier = closeMarker then
      walkAux symbols fuel (getSym symbols symIndex).typeId result
    else
      walkAux symbols fuel (symIndex - 1)
        (setSym result (getSym symbols symIndex).identifier
          ⟨some (getSym symbols symIndex).y, some (getSym symbols symIndex).x,
           (getSym symbols symIndex).identifier, (getSym symbols symIndex).typeId⟩)

/-- teal.ts function symbolsInScope.  The fuel symbols.length + 1 is
sufficient whenever the loop terminates at all (each step strictly
decreases the index under the well-formedness condition CloseOK); none
models a diverging loop. -/
def symbolsInScope (r : TypeReport) (y x : Int) : Option SMap :=
  walkAux r.symbols (r.symbols.length + 1) (find r.symbols y x) (globalsSeed r.globals)

/-- Ghost companion of walkAux: the chronological list of indices the
while-loop visits. -/
def walkVisits (symbols : List SymbolTuple) : Nat → Int → Option (List Int)
  | 0, i => if i < 0 then some [] else none
  | fuel + 1, i =>
    if i < 0 then some []
    else if (getSym symbols i).identifier = openMarker then
      (walkVisits symbols fuel (i - 1)).map (i :: ·)
    else if (getSym symbols i).identifier = closeMarker then
      (walkVisits symbols fuel (getSym symbols i).typeId).map (i :: ·)
    else
      (walkVisits symbols fuel (i - 1)).map (i :: ·)

/-- Replay of the map writes the walk performs along a visit list. -/
def applyWrites (symbols : List SymbolTuple) (m : SMap) (vs : List Int) : SMap :=
  vs.foldl (fun acc j =>
    if (getSym symbols j).identifier = openMarker ∨
       (getSym symbols j).identifier = closeMarker then acc
    else
      setSym acc (getSym symbols j).identifier
        ⟨some (getSym symbols j).y, some (getSym symbols j).x,
         (getSym symbols j).identifier, (getSym symbols j).typeId⟩) m

lemma walkAux_eq_visits (symbols : List SymbolTuple) :
    ∀ fuel : Nat, ∀ (i : Int) (m : SMap),
      walkAux symbols fuel i m = (walkVisits symbols fuel i).map (applyWrites symbols m) := by
  intro fuel
  induction fuel with
  | zero =>
    intro i m
    by_cases hi : i < 0 <;> simp [walkAux, walkVisits, hi, applyWrites]
  | succ fuel ih =>
    intro i m
    by_cases hi : i < 0
    · simp [walkAux, walkVisits, hi, applyWrites]
    · by_cases hop : (getSym symbols i).identifier = openMarker
      · rw [walkAux, walkVisits]
        simp only [if_neg hi, if_pos hop, ih, Option.map_map]
        cases walkVisits symbols fuel (i - 1) <;>
          simp [applyWrites, List.foldl_cons, hop]
      · by_cases hcl : (getSym symbols i).identifier = closeMarker
        · rw [walkAux, walkVisits]
          simp only [if_neg hi, if_neg hop, if_pos hcl, ih, Option.map_map]
          cases walkVisits symbols fuel (getSym symbols i).typeId <;>
            simp [applyWrites, List.foldl_cons, hop, hcl]
        · rw [walkAux, walkVisits]
          simp only [if_neg hi, if_neg hop, if_neg hcl, ih, Option.map_map]
          cases walkVisits symbols fuel (i - 1) <;>
            simp [applyWrites, List.foldl_cons, hop, hcl]

/-- Well-formedness of the report used for termination (implicit claim):
every scope-close marker stores a strictly smaller index in its typeId
slot. -/
def CloseOK (symbols : List SymbolTuple) : Prop :=
  ∀ n : Nat, n < symbols.length →
    (symbols.getD n ⟨0, 0, "", 0⟩).identifier = closeMarker →
    (symbols.getD n ⟨0, 0, "", 0⟩).typeId < (n : Int)

instance (symbols : List SymbolTuple) : Decidable (CloseOK symbols) := by
  unfold CloseOK; infer_instance

lemma closeOK_int {symbols : List SymbolTuple} (hc : CloseOK symbols) {i : Int}
    (h0 : 0 ≤ i) (hlen : i < (symbols.length : Int))
    (hcl : (getSym symbols i).identifier = closeMarker) :
    (getSym symbols i).typeId < i := by
  have hn : i.toNat < symbols.length := by omega
  have h := hc i.toNat hn (by unfold getSym at hcl; exact hcl)
  unfold getSym
  omega

lemma walkVisits_isSome (symbols : List SymbolTuple) (hc : CloseOK symbols) :
    ∀ fuel : Nat, ∀ i : Int, i < fuel → i < symbols.length →
      (walkVisits symbols fuel i).isSome := by
  intro fuel
  induction fuel with
  | zero =>
    intro i hf hlen
    have hi : i < 0 := by exact_mod_cast hf
    simp [walkVisits, hi]
  | succ fuel ih =>
    intro i hf hlen
    by_cases hi : i < 0
    · simp [walkVisits, hi]
    · push_neg at hi
      by_cases hop : (getSym symbols i).identifier = openMarker
      · rw [walkVisits]
        simp only [if_neg (by omega : ¬ i < 0), if_pos hop, Option.isSome_map']
        exact ih (i - 1) (by push_cast at hf ⊢; omega) (by omega)
      · by_cases hcl : (getSym symbols i).identifier = closeMarker
        · rw [walkVisits]
          simp only [if_neg (by omega : ¬ i < 0), if_neg hop, if_pos hcl, Option.isSome_map']
          have hjump := closeOK_int hc hi hlen hcl
          exact ih _ (by push_cast at hf ⊢; omega) (by omega)
        · rw [walkVisits]
          simp only [if_neg (by omega : ¬ i < 0), if_neg hop, if_neg hcl, Option.isSome_map']
          exact ih (i - 1) (by push_cast at hf ⊢; omega) (by omega)

/-- One step of the scope walk: from index a the loop moves to the stored
index for a close marker, and to a - 1 otherwise. -/
def walkStep (symbols : List SymbolTuple) (a b : Int) : Prop :=
  if (getSym symbols a).identifier = closeMarker then b = (getSym symbols a).typeId
  else b = a - 1

lemma walkVisits_shape (symbols : List SymbolTuple) (hc : CloseOK symbols) :
    ∀ (fuel : Nat) (i : Int) (vs : List Int), i < (symbols.length : Int) →
      walkVisits symbols fuel i = some vs →
      (∀ j ∈ vs, 0 ≤ j ∧ j ≤ i ∧ j < (symbols.length : Int)) ∧
      List.Chain' (fun a b => walkStep symbols a b ∧ b < a) vs ∧
      (0 ≤ i → vs.head? = some i) ∧ (i < 0 → vs = []) := by
  intro fuel
  induction fuel with
  | zero =>
    intro i vs hlen hv
    by_cases hi : i < 0
    · simp only [walkVisits, if_pos hi, Option.some_inj] at hv
      subst hv
      refine ⟨by simp, by simp, by intro h; omega, fun _ => rfl⟩
    · simp [walkVisits, hi] at hv
  | succ fuel ih =>
    intro i vs hlen hv
    by_cases hi : i < 0
    · simp only [walkVisits, if_pos hi, Option.some_inj] at hv
      subst hv
      refine ⟨by simp, by simp, by intro h; omega, fun _ => rfl⟩
    · push_neg at hi
      have hstep : ∃ inext vs0, walkVisits symbols fuel inext = some vs0 ∧
          vs = i :: vs0 ∧ walkStep symbols i inext ∧ inext < i ∧
          inext < (symbols.length : Int) := by
        rw [walkVisits] at hv
        simp only [if_neg (by omega : ¬ i < 0)] at hv
        by_cases hop : (getSym symbols i).identifier = openMarker
        · simp only [if_pos hop] at hv
          rcases Option.map_eq_some'.mp hv with ⟨vs0, hvs0, hcons⟩
          exact ⟨i - 1, vs0, hvs0, hcons.symm, by
            unfold walkStep
            rw [if_neg (by rw [hop]; decide)], by omega, by omega⟩
        · by_cases hcl : (getSym symbols i).identifier = closeMarker
          · simp only [if_neg hop, if_pos hcl] at hv
            rcases Option.map_eq_some'.mp hv with ⟨vs0, hvs0, hcons⟩
            have hlt := closeOK_int hc hi hlen hcl
            exact ⟨(getSym symbols i).typeId, vs0, hvs0, hcons.symm, by
              unfold walkStep
              rw [if_pos hcl], hlt, by omega⟩
          · simp only [if_neg hop, if_neg hcl] at hv
            rcases Option.map_eq_some'.mp hv with ⟨vs0, hvs0, hcons⟩
            exact ⟨i - 1, vs0, hvs0, hcons.symm, by
              unfold walkStep
              rw [if_neg hcl], by omega, by omega⟩
      rcases hstep with ⟨inext, vs0, hvs0, rfl, hws, hdec, hlen0⟩
      rcases ih inext vs0 hlen0 hvs0 with ⟨hmem0, hchain0, hhead0, hneg0⟩
      refine ⟨?_, ?_, ?_, ?_⟩
      · intro j hj
        rcases List.mem_cons.mp hj with rfl | hj0
        · exact ⟨hi, le_refl _, hlen⟩
        · have := hmem0 j hj0
          exact ⟨this.1, by omega, this.2.2⟩
      · rw [List.chain'_cons']
        refine ⟨?_, hchain0⟩
        intro h hh
        by_cases h0 : 0 ≤ inext
        · rw [hhead0 h0] at hh
          cases hh
          exact ⟨hws, hdec⟩
        · push_neg at h0
          rw [hneg0 h0] at hh
          simp at hh
      · intro _
        rfl
      · intro h
        omega

lemma chain_decreasing_pairwise (vs : List Int)
    (hchain : List.Chain' (fun a b : Int => b < a) vs) :
    List.Pairwise (fun a b : Int => b < a) vs := by
  have : IsTrans Int (fun a b : Int => b < a) := ⟨fun a b c h1 h2 => by omega⟩
  exact List.chain'_iff_pairwise.mp hchain

/-- Once the walk has visited a scope-close marker c, no index strictly
between the stored jump target and c is ever visited. -/
lemma visits_no_skip (symbols : List SymbolTuple) :
    ∀ vs : List Int,
      List.Chain' (fun a b => walkStep symbols a b ∧ b < a) vs →
      ∀ c ∈ vs, (getSym symbols c).identifier = closeMarker →
      ∀ j ∈ vs, ¬ ((getSym symbols c).typeId < j ∧ j < c) := by
  intro vs
  induction vs with
  | nil => simp
  | cons a t ih =>
    intro hchain c hcv hcl j hjv hand
    have hpairA : ∀ b ∈ t, b < a := by
      have hp := chain_decreasing_pairwise _ (List.Chain'.imp (fun p q h => h.2) hchain)
      exact fun b hb => (List.pairwise_cons.mp hp).1 b hb
    have hchainT : List.Chain' (fun p q => walkStep symbols p q ∧ q < p) t :=
      hchain.tail
    rcases List.mem_cons.mp hcv with rfl | hct
    · rcases List.mem_cons.mp hjv with rfl | hjt
      · omega
      · -- c is the head, j is in the tail: j is at most the jump target
        cases t with
        | nil => simp at hjt
        | cons b t2 =>
          have hrel : walkStep symbols c b ∧ b < c := (List.chain'_cons.mp hchain).1
          have hb : b = (getSym symbols c).typeId := by
            have := hrel.1
            unfold walkStep at this
            rwa [if_pos hcl] at this
          rcases List.mem_cons.mp hjt with rfl | hjt2
          · omega
          · have hjb : j < b := by
              have hp := chain_decreasing_pairwise _
                (List.Chain'.imp (fun p q h => h.2) hchainT)
              exact (List.pairwise_cons.mp hp).1 j hjt2
            omega
    · rcases List.mem_cons.mp hjv with rfl | hjt
      · -- j is the head, c is in the tail: j > c
        have : c < j := hpairA c hct
        omega
      · exact ih hchainT c hct hcl j hjt hand

/-- Bool predicate: the walk writes key g when visiting index j
(a non-marker entry whose identifier is g). -/
def isWriteB (symbols : List SymbolTuple) (g : String) (j : Int) : Bool :=
  ((getSym symbols j).identifier == g) &&
  !(((getSym symbols j).identifier == openMarker) ||
    ((getSym symbols j).identifier == closeMarker))

/-- The visited indices that write key g, in chronological order. -/
def writesFor (symbols : List SymbolTuple) (vs : List Int) (g : String) : List Int :=
  vs.filter (isWriteB symbols g)

/-- The symbol value recorded for the entry at index j. -/
def entryAt (symbols : List SymbolTuple) (j : Int) : ScopeSymbol :=
  ⟨some (getSym symbols j).y, some (getSym symbols j).x,
   (getSym symbols j).identifier, (getSym symbols j).typeId⟩

lemma applyWrites_eq (symbols : List SymbolTuple) (g : String) :
    ∀ (vs : List Int) (m : SMap),
      applyWrites symbols m vs g =
        match (writesFor symbols vs g).getLast? with
        | some j => some (entryAt symbols j)
        | none => m g := by
  intro vs
  induction vs with
  | nil =>
    intro m
    simp [applyWrites, writesFor]
  | cons j t ih =>
    intro m
    have hfold : applyWrites symbols m (j :: t) =
        applyWrites symbols
          (if (getSym symbols j).identifier = openMarker ∨
              (getSym symbols j).identifier = closeMarker then m
           else setSym m (getSym symbols j).identifier (entryAt symbols j)) t := by
      simp [applyWrites, entryAt]
    by_cases hw : isWriteB symbols g j = true
    · -- a write to key g
      have hmark : ¬ ((getSym symbols j).identifier = openMarker ∨
          (getSym symbols j).identifier = closeMarker) := by
        simp only [isWriteB, Bool.and_eq_true, Bool.not_eq_true', Bool.or_eq_false_iff,
          beq_iff_eq, beq_eq_false_iff_ne] at hw
        tauto
      have hgid : (getSym symbols j).identifier = g := by
        simp only [isWriteB, Bool.and_eq_true, beq_iff_eq] at hw
        exact hw.1
      rw [hfold, if_neg hmark, ih]
      have hwf : writesFor symbols (j :: t) g = j :: writesFor symbols t g := by
        simp [writesFor, List.filter_cons, hw]
      rw [hwf]
      cases hwt : writesFor symbols t g with
      | nil =>
        simp only [List.getLast?_nil, List.getLast?_singleton]
        simp [setSym, hgid]
      | cons b l =>
        rw [List.getLast?_cons_cons]
        cases hbl : (b :: l).getLast? with
        | none =>
          have h3 := List.getLast?_isSome.mpr (by simp : (b :: l) ≠ [])
          rw [hbl] at h3
          simp at h3
        | some j2 => rfl
    · -- not a write to key g: either a marker or another identifier
      rw [hfold, ih]
      have hwf : writesFor symbols (j :: t) g = writesFor symbols t g := by
        simp only [writesFor, List.filter_cons]
        rw [if_neg (by simpa using hw)]
      rw [hwf]
      cases hwt : (writesFor symbols t g).getLast? with
      | none =>
        by_cases hmark : (getSym symbols j).identifier = openMarker ∨
            (getSym symbols j).identifier = closeMarker
        · rw [if_pos hmark]
        · rw [if_neg hmark]
          push_neg at hmark
          have hgid : (getSym symbols j).identifier ≠ g := by
            intro heq
            apply hw
            rw [heq] at hmark
            simp [isWriteB, heq, hmark.1, hmark.2]
          simp only [setSym]
          rw [if_neg (fun h => hgid h.symm)]
      | some j2 => rfl

lemma applyWrites_skip (symbols : List SymbolTuple) (g : String) (vs : List Int) (m : SMap)
    (h : ∀ j ∈ vs, (getSym symbols j).identifier ≠ g) :
    applyWrites symbols m vs g = m g := by
  rw [applyWrites_eq]
  have hnil : writesFor symbols vs g = [] := by
    simp only [writesFor, List.filter_eq_nil_iff]
    intro j hj
    simp only [isWriteB, Bool.and_eq_true, beq_iff_eq, not_and]
    intro hg
    exact absurd hg (h j hj)
  rw [hnil]
  rfl

/-- Lookup in the globals object: the last entry with the given key wins
(JavaScript object-key semantics). -/
def globalsLookup (globals : List (String × Int)) (g : String) : Option Int :=
  (globals.reverse.find? (fun p => p.1 == g)).map (fun p => p.2)

lemma globalsSeed_eq (globals : List (String × Int)) (g : String) :
    globalsSeed globals g =
      (globalsLookup globals g).map (fun tid => (⟨none, none, g, tid⟩ : ScopeSymbol)) := by
  induction globals using List.reverseRecOn with
  | nil => simp [globalsSeed, globalsLookup]
  | append_singleton l p ih =>
    unfold globalsSeed globalsLookup at *
    rw [List.foldl_append, List.reverse_append]
    simp only [List.foldl_cons, List.foldl_nil, List.reverse_singleton, List.singleton_append,
      List.find?_cons]
    by_cases hp : p.1 = g
    · rw [setSym, if_pos hp.symm]
      simp [hp]
    · rw [setSym, if_neg (fun h => hp h.symm)]
      rw [ih]
      have : (p.1 == g) = false := by simpa using hp
      rw [this]

/-- A strictly decreasing integer list whose members are exactly i and j
with i < j is the two-element list [j, i]. -/
lemma pairwise_two {i j : Int} (hij : i < j) :
    ∀ l : List Int, List.Pairwise (fun a b : Int => b < a) l →
      i ∈ l → j ∈ l → (∀ k ∈ l, k = i ∨ k = j) → l = [j, i] := by
  intro l
  induction l with
  | nil => intro _ hi; simp at hi
  | cons a t ih =>
    intro hp hi hj hsub
    have hta : ∀ b ∈ t, b < a := (List.pairwise_cons.mp hp).1
    have hpt : List.Pairwise (fun a b : Int => b < a) t := (List.pairwise_cons.mp hp).2
    have ha : a = j := by
      rcases hsub a (List.mem_cons_self a t) with rfl | rfl
      · -- a = i: then j must be in the tail, but tail elements are < a = i < j
        rcases List.mem_cons.mp hj with heq | hjt
        · omega
        · have := hta j hjt
          omega
      · rfl
    subst ha
    have hit : i ∈ t := by
      rcases List.mem_cons.mp hi with heq | hit
      · omega
      · exact hit
    have ht : t = [i] := by
      cases t with
      | nil => simp at hit
      | cons b t2 =>
        have hb : b = i := by
          rcases hsub b (by simp) with rfl | rfl
          · rfl
          · have := hta b (by simp)
            omega
        subst hb
        have ht2 : t2 = [] := by
          cases t2 with
          | nil => rfl
          | cons c t3 =>
            have hc1 := hta c (by simp)
            have hc2 := ((List.pairwise_cons.mp hpt).1) c (by simp)
            rcases hsub c (by simp) with rfl | rfl
            · omega
            · omega
        rw [ht2]
    rw [ht]

/-- C2: for every symbols array sorted ascending by (line, column) and
every query position (y, x), find returns the largest index whose entry is
at-or-before the query (line first, then column, equality counts as
at-or-before), and -1 when no entry is at-or-before; consequently every
index holding an entry at-or-before the query — in particular the first of
several duplicates of the query position — is ≤ the returned index. -/
theorem find_rightmost_at_or_before (symbols : List SymbolTuple) (y x : Int)
    (hs : SortedSyms symbols) :
    ((∀ i : Int, 0 ≤ i → i < symbols.length →
        ¬ le (getSym symbols i).y (getSym symbols i).x y x) →
      find symbols y x = -1)
    ∧ (∀ a : Int, 0 ≤ a → a < symbols.length →
        le (getSym symbols a).y (getSym symbols a).x y x →
        (∀ j : Int, a < j → j < symbols.length →
          ¬ le (getSym symbols j).y (getSym symbols j).x y x) →
        find symbols y x = a)
    ∧ (∀ j : Int, 0 ≤ j → j < symbols.length →
        le (getSym symbols j).y (getSym symbols j).x y x →
        j ≤ find symbols y x ∧ find symbols y x < symbols.length) := by
  refine ⟨?_, ?_, ?_⟩
  · intro hnone
    exact findAux_none symbols y x hnone 0 _ (by omega) (by omega)
  · intro a h0a haLen haLe haMax
    exact findAux_max symbols y x hs a h0a haLen haLe haMax 0 _ (by omega) h0a
      (by omega) (by omega)
  · intro j h0j hjLen hjLe
    have hlen1 : 1 ≤ symbols.length := by omega
    set P : Nat → Prop := fun k =>
      le (getSym symbols k).y (getSym symbols k).x y x with hP
    have hPj : P j.toNat := by
      simp only [hP]
      have : ((j.toNat : Int)) = j := by omega
      rw [this]
      exact hjLe
    have hjb : j.toNat ≤ symbols.length - 1 := by omega
    have hg1 : P (Nat.findGreatest P (symbols.length - 1)) :=
      Nat.findGreatest_spec hjb hPj
    have hg2 : j.toNat ≤ Nat.findGreatest P (symbols.length - 1) :=
      Nat.le_findGreatest hjb hPj
    have hg3 : Nat.findGreatest P (symbols.length - 1) ≤ symbols.length - 1 :=
      Nat.findGreatest_le _
    have hfind : find symbols y x = (Nat.findGreatest P (symbols.length - 1) : Int) := by
      apply findAux_max symbols y x hs _ (by omega) (by omega) hg1 _ 0 _ (by omega)
        (by omega) (by omega) (by omega)
      intro k hk1 hk2 hkle
      have hkN : k.toNat ≤ symbols.length - 1 := by omega
      have hPk : P k.toNat := by
        simp only [hP]
        have : ((k.toNat : Int)) = k := by omega
        rw [this]
        exact hkle
      have := Nat.le_findGreatest hkN hPk
      omega
    rw [hfind]
    constructor
    · omega
    · omega

/-- A concrete sorted report with two entries at the same position (1, 5),
used to exercise the duplicate-position tie-break of find. -/
def dupSymbols : List SymbolTuple :=
  [⟨1, 5, "a", 1⟩, ⟨1, 5, "b", 2⟩]

/-- Witness for C2 at a concrete input: two entries share position (1, 5)
and the query (1, 5) returns index 1, the rightmost at-or-before. -/
theorem find_rightmost_at_or_before_witness : find dupSymbols 1 5 = 1 :=
  (find_rightmost_at_or_before dupSymbols 1 5 (by decide)).2.1 1 (by decide)
    (by decide) (by decide)
    (by
      intro j h1 h2
      have hlen : dupSymbols.length = 2 := rfl
      rw [hlen] at h2
      omega)

/-- A degenerate report whose single entry is a scope-close marker storing
its own index 0: the walk jumps from index 0 back to index 0 forever. -/
def badCloseSymbols : List SymbolTuple :=
  [⟨1, 1, closeMarker, 0⟩]

/-- C10: whenever every scope-close marker stores an index strictly
smaller than its own position, the backward walk of symbolsInScope
terminates for every query position (the walk index strictly decreases at
every step, so the fuel symbols.length + 1 suffices); and without that
precondition the loop need not terminate: on the report whose single
close marker stores its own index the walk runs out of any amount of
fuel. -/
theorem scope_walk_termination :
    (∀ (r : TypeReport) (y x : Int), CloseOK r.symbols →
      (symbolsInScope r y x).isSome)
    ∧ (∀ (fuel : Nat) (m : SMap), walkAux badCloseSymbols fuel 0 m = none) := by
  constructor
  · intro r y x hc
    unfold symbolsInScope
    rw [walkAux_eq_visits, Option.isSome_map']
    have hb : -1 ≤ find r.symbols y x ∧ find r.symbols y x < (r.symbols.length : Int) :=
      findAux_bounds r.symbols y x 0 ((r.symbols.length : Int) - 1) (by omega) (by omega)
    exact walkVisits_isSome r.symbols hc _ _ (by push_cast; omega) (by omega)
  · intro fuel
    induction fuel with
    | zero =>
      intro m
      simp [walkAux]
    | succ fuel ih =>
      intro m
      rw [walkAux]
      have h1 : ¬ ((0 : Int) < 0) := by omega
      have h2 : getSym badCloseSymbols 0 = ⟨1, 1, closeMarker, 0⟩ := rfl
      rw [if_neg h1, h2, if_neg (by decide), if_pos rfl]
      exact ih m

/-- Witness for C10: the termination half applied to a concrete
well-formed report. -/
theorem scope_walk_termination_witness :
    (symbolsInScope ⟨dupSymbols, [("g", 7)]⟩ 1 5).isSome :=
  scope_walk_termination.1 ⟨dupSymbols, [("g", 7)]⟩ 1 5 (by decide)

/-- C3: globals visibility and closed-scope exclusion.  For a sorted,
well-formed report the resolver result exists, and: (a) a global whose
identifier is never written during the backward walk keeps its global
type handle; (b) every binding in the result comes from the globals seed
or from a visited symbols entry with that identifier, and no index inside
a scope skipped by a visited close marker is ever visited; (c) when no
symbols entry is at-or-before the query position the result is exactly the
globals seed. -/
theorem symbolsInScope_globals_and_closed_scopes (r : TypeReport) (y x : Int)
    (hs : SortedSyms r.symbols) (hc : CloseOK r.symbols) :
    ∃ (m : SMap) (vs : List Int),
      symbolsInScope r y x = some m ∧
      walkVisits r.symbols (r.symbols.length + 1) (find r.symbols y x) = some vs ∧
      (∀ g tid, globalsLookup r.globals g = some tid →
        (∀ j ∈ vs, (getSym r.symbols j).identifier ≠ g) →
        m g = some ⟨none, none, g, tid⟩) ∧
      (∀ s v, m s = some v → globalsSeed r.globals s = some v ∨
        ∃ j ∈ vs, (getSym r.symbols j).identifier = s) ∧
      (∀ c ∈ vs, (getSym r.symbols c).identifier = closeMarker →
        ∀ j ∈ vs, ¬ ((getSym r.symbols c).typeId < j ∧ j < c)) ∧
      ((∀ i : Int, 0 ≤ i → i < r.symbols.length →
          ¬ le (getSym r.symbols i).y (getSym r.symbols i).x y x) →
        m = globalsSeed r.globals) := by
  have hb : -1 ≤ find r.symbols y x ∧ find r.symbols y x < (r.symbols.length : Int) :=
    findAux_bounds r.symbols y x 0 ((r.symbols.length : Int) - 1) (by omega) (by omega)
  have hvsS : (walkVisits r.symbols (r.symbols.length + 1) (find r.symbols y x)).isSome :=
    walkVisits_isSome r.symbols hc _ _ (by push_cast; omega) (by omega)
  obtain ⟨vs, hvs⟩ := Option.isSome_iff_exists.mp hvsS
  have hm : symbolsInScope r y x =
      some (applyWrites r.symbols (globalsSeed r.globals) vs) := by
    unfold symbolsInScope
    rw [walkAux_eq_visits, hvs]
    rfl
  obtain ⟨hmem, hchain, hhead, hneg⟩ :=
    walkVisits_shape r.symbols hc _ _ vs (by omega) hvs
  refine ⟨applyWrites r.symbols (globalsSeed r.globals) vs, vs, hm, hvs, ?_, ?_, ?_, ?_⟩
  · -- (a) unshadowed globals survive
    intro g tid hlook hnog
    rw [applyWrites_skip r.symbols g vs _ hnog, globalsSeed_eq, hlook]
    rfl
  · -- (b1) provenance of every binding
    intro s v hv
    rw [applyWrites_eq] at hv
    cases hwt : (writesFor r.symbols vs s).getLast? with
    | none =>
      rw [hwt] at hv
      exact Or.inl hv
    | some j =>
      right
      have hjmem : j ∈ writesFor r.symbols vs s := List.mem_of_mem_getLast? hwt
      have hjf := List.mem_filter.mp hjmem
      refine ⟨j, hjf.1, ?_⟩
      have hb2 := hjf.2
      simp only [isWriteB, Bool.and_eq_true, beq_iff_eq] at hb2
      exact hb2.1
  · -- (b2) closed sibling scopes are skipped whole
    intro c hcv hcl j hjv
    exact visits_no_skip r.symbols vs hchain c hcv hcl j hjv
  · -- (c) no entry at-or-before the query: result is the globals
    intro hnone
    have hfind : find r.symbols y x = -1 :=
      findAux_none r.symbols y x hnone 0 _ (by omega) (by omega)
    have hseed : symbolsInScope r y x = some (globalsSeed r.globals) := by
      unfold symbolsInScope
      rw [hfind, walkAux]
      rw [if_pos (by omega : (-1 : Int) < 0)]
    rw [hm] at hseed
    exact Option.some_inj.mp hseed

/-- A concrete report with a nested scope: a declaration of x at (1,1), a
scope containing a declaration of z, closed before the query position
(5,1), and a declaration of w at (4,1); globals g and x. -/
def exSymbols : List SymbolTuple :=
  [⟨1, 1, "x", 10⟩, ⟨2, 1, openMarker, 0⟩, ⟨2, 2, "z", 11⟩,
   ⟨3, 1, closeMarker, 1⟩, ⟨4, 1, "w", 12⟩]

/-- Witness for C3: the hypotheses hold for the concrete report above, and
the resolver result exists there. -/
theorem symbolsInScope_globals_witness :
    (symbolsInScope ⟨exSymbols, [("g", 7), ("x", 8)]⟩ 5 1).isSome := by
  obtain ⟨m, vs, hm, _⟩ :=
    symbolsInScope_globals_and_closed_scopes ⟨exSymbols, [("g", 7), ("x", 8)]⟩ 5 1
      (by decide) (by decide)
  rw [hm]
  rfl

/-- The C1 counterexample symbols: two declarations of x, at (1,1) with
type handle 10 and at (1,2) with type handle 20, both at-or-before the
query position (1,5); no scope markers. -/
def cexSymbols : List SymbolTuple :=
  [⟨1, 1, "x", 10⟩, ⟨1, 2, "x", 20⟩]

/-- The C1 counterexample report (no globals). -/
def cexReport : TypeReport :=
  ⟨cexSymbols, []⟩

lemma cex_find : find cexSymbols 1 5 = 1 := by
  unfold find
  apply findAux_max cexSymbols 1 5 (by decide) 1 (by decide) (by decide) (by decide)
  · intro j h1 h2
    have hlen : cexSymbols.length = 2 := rfl
    rw [hlen] at h2
    omega
  · omega
  · decide
  · decide
  · decide

/-- The scope map the code produces on the C1 counterexample. -/
def cexMap : SMap :=
  applyWrites cexSymbols (globalsSeed []) [1, 0]

lemma cex_visits :
    walkVisits cexReport.symbols (cexReport.symbols.length + 1)
      (find cexReport.symbols 1 5) = some [1, 0] := by
  have h : find cexReport.symbols 1 5 = 1 := cex_find
  rw [h]
  decide

lemma cex_scope : symbolsInScope cexReport 1 5 = some cexMap := by
  unfold symbolsInScope
  rw [walkAux_eq_visits, cex_visits]
  rfl

/-- C1 counterexample: on a report whose symbols hold two declarations of
x, both visible at the query position (1,5) with no scope markers, the map
returned by symbolsInScope binds x to the type handle 10 of the EARLIER
declaration, not to the handle 20 of the later (closer) one as the claim
states: during the backward walk the earlier declaration is visited last
and its Map.set overwrites the later declaration. -/
theorem scope_shadowing_counterexample :
    symbolsInScope cexReport 1 5 = some cexMap ∧
    cexMap "x" = some ⟨some 1, some 1, "x", 10⟩ ∧
    cexMap "x" ≠ some ⟨some 1, some 2, "x", 20⟩ :=
  ⟨cex_scope, by decide, by decide⟩

/-- C1 (amended): shadowing by primacy in the scope resolver: when the
backward walk visits exactly two declaration entries with the same
identifier (indices i < j, neither skipped as part of a closed sibling
scope), the returned map binds that identifier to the type handle of the
EARLIER declaration i — the walk visits the later declaration first, and
the earlier declaration then overwrites it in the result map. -/
theorem scope_shadowing_earliest_wins (r : TypeReport) (y x : Int) (a : String)
    (m : SMap) (vs : List Int) (i j : Int)
    (hc : CloseOK r.symbols)
    (hm : symbolsInScope r y x = some m)
    (hvs : walkVisits r.symbols (r.symbols.length + 1) (find r.symbols y x) = some vs)
    (hij : i < j) (hiv : i ∈ vs) (hjv : j ∈ vs)
    (hwi : isWriteB r.symbols a i = true) (hwj : isWriteB r.symbols a j = true)
    (honly : ∀ k ∈ vs, isWriteB r.symbols a k = true → k = i ∨ k = j) :
    m a = some (entryAt r.symbols i) := by
  have hb : -1 ≤ find r.symbols y x ∧ find r.symbols y x < (r.symbols.length : Int) :=
    findAux_bounds r.symbols y x 0 ((r.symbols.length : Int) - 1) (by omega) (by omega)
  have hm2 : symbolsInScope r y x =
      some (applyWrites r.symbols (globalsSeed r.globals) vs) := by
    unfold symbolsInScope
    rw [walkAux_eq_visits, hvs]
    rfl
  rw [hm] at hm2
  have hmE : m = applyWrites r.symbols (globalsSeed r.globals) vs :=
    Option.some_inj.mp hm2
  obtain ⟨hmem, hchain, hhead, hneg⟩ :=
    walkVisits_shape r.symbols hc _ _ vs (by omega) hvs
  have hpair : List.Pairwise (fun p q : Int => q < p) vs :=
    chain_decreasing_pairwise vs (List.Chain'.imp (fun p q h => h.2) hchain)
  have hws : writesFor r.symbols vs a = [j, i] := by
    apply pairwise_two hij
    · exact List.Pairwise.sublist (List.filter_sublist vs) hpair
    · exact List.mem_filter.mpr ⟨hiv, hwi⟩
    · exact List.mem_filter.mpr ⟨hjv, hwj⟩
    · intro k hk
      have hk2 := List.mem_filter.mp hk
      exact honly k hk2.1 hk2.2
  rw [hmE, applyWrites_eq, hws]
  rfl

/-- Witness for C1 (amended) on the counterexample report: the two
declarations are at indices 0 and 1, both visited, and the result binds x
to the entry at index 0. -/
theorem scope_shadowing_earliest_wins_witness :
    cexMap "x" = some (entryAt cexReport.symbols 0) :=
  scope_shadowing_earliest_wins cexReport 1 5 "x" cexMap [1, 0] 0 1 (by decide)
    cex_scope cex_visits (by decide) (by decide) (by decide) (by decide) (by decide)
    (by decide)

/-- JS String.replace with a global regex of a literal pattern: leftmost,
non-overlapping scanning replacement; replaced text is not rescanned.
(JS treats an empty pattern differently, but prettifyTypeStr only uses
non-empty patterns.) -/
def replaceAll (pat rep : List Char) : List Char → List Char
  | [] => []
  | c :: rest =>
    if pat ≠ [] ∧ pat.isPrefixOf (c :: rest) then
      rep ++ replaceAll pat rep ((c :: rest).drop pat.length)
    else c :: replaceAll pat rep rest
termination_by l => l.length
decreasing_by
  · rename_i h
    have hp : pat.length ≥ 1 := by
      cases pat with
      | nil => simp at h
      | cons a t => simp
    simp only [List.length_drop, List.length_cons]
    omega
  · simp

/-- JS regex word character (backslash-w): ASCII letters, digits and
underscore. -/
def wordChar (c : Char) : Bool :=
  c.isAlphanum || c == '_'

/-- Word boundary between the previous original character (none = start
of string) and a word character. -/
def bLeft (prev : Option Char) : Bool :=
  match prev with
  | none => true
  | some c => !wordChar c

/-- Word boundary between a word character and what follows. -/
def bRight (rest : List Char) : Bool :=
  match rest with
  | [] => true
  | c :: _ => !wordChar c

/-- Does the word-bounded pattern and match at the start of l, prev being
the original character just before l? -/
def andAt (prev : Option Char) (l : List Char) : Bool :=
  (l.take 3 == ['a', 'n', 'd']) && bLeft prev && bRight (l.drop 3)

/-- JS String.replace of the word-bounded and by an ampersand, scanning
left to right; matching is against the original string, so prev tracks the
original preceding character. -/
def replaceAnd (prev : Option Char) : List Char → List Char
  | [] => []
  | c :: rest =>
    if andAt prev (c :: rest) then '&' :: replaceAnd (some 'd') (rest.drop 2)
    else c :: replaceAnd (some c) rest
termination_by l => l.length
decreasing_by
  · simp only [List.length_drop, List.length_cons]
    omega
  · simp

/-- Scanning substring-occurrence test. -/
def hasOccur (pat : List Char) : List Char → Bool
  | [] => pat.isPrefixOf ([] : List Char)
  | c :: rest => pat.isPrefixOf (c :: rest) || hasOccur pat rest

/-- Is there any position at which the word-bounded and matches? -/
def hasAndMatch (prev : Option Char) : List Char → Bool
  | [] => false
  | c :: rest => andAt prev (c :: rest) || hasAndMatch (some c) rest

/-- prettifyTypeStr of teal.ts (also duplicated in server.ts), on char
lists: rewrite every occurrence of the literal any-type placeholder to
any, then the generic placeholders to T and U, then the word and to an
ampersand. -/
def prettifyTypeStr (t : List Char) : List Char :=
  replaceAnd none
    (replaceAll "@b".toList "U".toList
      (replaceAll "@a".toList "T".toList
        (replaceAll "<any type>".toList "any".toList t)))

lemma hasOccur_cons_false {pat : List Char} {c : Char} {rest : List Char}
    (h : hasOccur pat (c :: rest) = false) :
    pat.isPrefixOf (c :: rest) = false ∧ hasOccur pat rest = false := by
  rw [hasOccur] at h
  exact Bool.or_eq_false_iff.mp h

lemma replaceAll_no_occur (pat rep : List Char) :
    ∀ l : List Char, hasOccur pat l = false → replaceAll pat rep l = l := by
  intro l
  induction l with
  | nil => intro h; simp [replaceAll]
  | cons c rest ih =>
    intro h
    obtain ⟨h1, h2⟩ := hasOccur_cons_false h
    rw [replaceAll, if_neg (by simp [h1]), ih h2]

lemma replaceAll_two_fresh (x y r : Char) (hrx : r ≠ x) (hry : r ≠ y) :
    ∀ l : List Char, hasOccur [x, y] (replaceAll [x, y] [r] l) = false := by
  have hxr : (x == r) = false := by
    simp only [beq_eq_false_iff_ne]
    exact Ne.symm hrx
  have hyr : (y == r) = false := by
    simp only [beq_eq_false_iff_ne]
    exact Ne.symm hry
  intro l
  induction l using replaceAll.induct [x, y] [r] with
  | case1 =>
    simp [replaceAll, hasOccur]
  | case2 c rest hcond ih =>
    rw [replaceAll, if_pos hcond]
    simp only [List.singleton_append]
    rw [hasOccur]
    simp only [List.isPrefixOf, hxr, Bool.false_and, Bool.false_or]
    exact ih
  | case3 c rest hcond ih =>
    rw [replaceAll, if_neg hcond]
    rw [hasOccur]
    simp only [Bool.or_eq_false_iff]
    refine ⟨?_, ih⟩
    by_cases hcx : (x == c) = true
    · replace hcx : x = c := by simpa using hcx
      cases rest with
      | nil =>
        simp [replaceAll, List.isPrefixOf]
      | cons d rest2 =>
        have hdy : (y == d) = false := by
          by_contra hcon
          apply hcond
          refine ⟨by simp, ?_⟩
          simp only [List.isPrefixOf, Bool.and_eq_true, beq_iff_eq]
          have : y = d := by
            have := Bool.of_not_eq_false hcon
            simpa using this
          exact ⟨hcx, this, trivial⟩
        rw [replaceAll]
        by_cases hc2 : ([x, y] : List Char) ≠ [] ∧
            ([x, y] : List Char).isPrefixOf (d :: rest2) = true
        · rw [if_pos hc2]
          simp only [List.singleton_append, List.isPrefixOf, hyr, Bool.and_eq_false_iff]
          right
          left
          trivial
        · rw [if_neg hc2]
          simp only [List.isPrefixOf, hdy, Bool.and_eq_false_iff]
          right
          left
          trivial
    · have hcxF : (x == c) = false := by
        cases h : (x == c) with
        | false => rfl
        | true => exact absurd h hcx
      simp only [List.isPrefixOf, hcxF, Bool.false_and]

lemma replaceAll_two_pres (x y p q r : Char) (hrx : r ≠ x) (hry : r ≠ y) :
    ∀ l : List Char, hasOccur [x, y] l = false →
      hasOccur [x, y] (replaceAll [p, q] [r] l) = false := by
  have hxr : (x == r) = false := by
    simp only [beq_eq_false_iff_ne]
    exact Ne.symm hrx
  intro l
  induction l using replaceAll.induct [p, q] [r] with
  | case1 =>
    intro h
    simp [replaceAll, hasOccur]
  | case2 c rest hcond ih =>
    intro h
    obtain ⟨h1, h2⟩ := hasOccur_cons_false h
    rw [replaceAll, if_pos hcond]
    simp only [List.singleton_append]
    rw [hasOccur]
    simp only [List.isPrefixOf, hxr, Bool.false_and, Bool.false_or]
    obtain ⟨-, hpre⟩ := hcond
    cases rest with
    | nil => simp [List.isPrefixOf] at hpre
    | cons d rest2 =>
      obtain ⟨-, h3⟩ := hasOccur_cons_false h2
      exact ih h3
  | case3 c rest hcond ih =>
    intro h
    obtain ⟨h1, h2⟩ := hasOccur_cons_false h
    rw [replaceAll, if_neg hcond]
    rw [hasOccur]
    simp only [Bool.or_eq_false_iff]
    refine ⟨?_, ih h2⟩
    by_cases hcx : (x == c) = true
    · replace hcx : x = c := by simpa using hcx
      -- rest cannot start with y, else h1 would be a match
      cases rest with
      | nil =>
        simp [replaceAll, List.isPrefixOf]
      | cons d rest2 =>
        have hdy : (y == d) = false := by
          by_contra hcon
          have hyd : y = d := by
            have := Bool.of_not_eq_false hcon
            simpa using this
          rw [show ([x, y] : List Char).isPrefixOf (c :: d :: rest2) = true by
            simp only [List.isPrefixOf, Bool.and_eq_true, beq_iff_eq]
            exact ⟨hcx, hyd, trivial⟩] at h1
          simp at h1
        rw [replaceAll]
        by_cases hc2 : ([p, q] : List Char) ≠ [] ∧
            ([p, q] : List Char).isPrefixOf (d :: rest2) = true
        · rw [if_pos hc2]
          have hyr : (y == r) = false := by
            simp only [beq_eq_false_iff_ne]
            exact Ne.symm hry
          simp only [List.singleton_append, List.isPrefixOf, hyr, Bool.and_eq_false_iff]
          right
          left
          trivial
        · rw [if_neg hc2]
          simp only [List.isPrefixOf, hdy, Bool.and_eq_false_iff]
          right
          left
          trivial
    · have hcxF : (x == c) = false := by
        cases hcc : (x == c) with
        | false => rfl
        | true => exact absurd hcc hcx
      simp only [List.isPrefixOf, hcxF, Bool.false_and]

lemma andAt_decomp {prev : Option Char} {l : List Char} (h : andAt prev l = true) :
    ∃ rest, l = 'a' :: 'n' :: 'd' :: rest ∧ bLeft prev = true ∧ bRight rest = true := by
  rcases l with _ | ⟨c1, _ | ⟨c2, _ | ⟨c3, rest⟩⟩⟩ <;>
    simp only [andAt, List.take, List.drop, Bool.and_eq_true, beq_iff_eq] at h
  · simp at h
  · simp at h
  · simp at h
  · obtain ⟨⟨heq, hb1⟩, hb2⟩ := h
    have : c1 = 'a' ∧ c2 = 'n' ∧ c3 = 'd' := by
      simpa using heq
    exact ⟨rest, by simp [this.1, this.2.1, this.2.2], hb1, hb2⟩

lemma andAt_false_head {prev : Option Char} {c : Char} {l : List Char} (h : c ≠ 'a') :
    andAt prev (c :: l) = false := by
  have : ((c :: l).take 3 == ['a', 'n', 'd']) = false := by
    cases l with
    | nil => simp [List.take, h]
    | cons d t =>
      cases t with
      | nil => simp [List.take, h]
      | cons e t2 => simp [List.take, h]
  unfold andAt
  rw [this]
  simp

lemma andAt_false_bLeft {prev : Option Char} {l : List Char} (h : bLeft prev = false) :
    andAt prev l = false := by
  simp [andAt, h]

lemma replaceAnd_two_pres (x y : Char) (hx : '&' ≠ x) (hy : '&' ≠ y) :
    ∀ (prev : Option Char) (l : List Char), hasOccur [x, y] l = false →
      hasOccur [x, y] (replaceAnd prev l) = false := by
  have hxa : (x == '&') = false := by
    simp only [beq_eq_false_iff_ne]
    exact Ne.symm hx
  have hya : (y == '&') = false := by
    simp only [beq_eq_false_iff_ne]
    exact Ne.symm hy
  intro prev l
  induction prev, l using replaceAnd.induct with
  | case1 prev =>
    intro h
    simp [replaceAnd, hasOccur]
  | case2 prev c rest hand ih =>
    intro h
    obtain ⟨rest3, hshape, -, -⟩ := andAt_decomp hand
    have hc : c = 'a' := by
      have := congrArg (fun l => l.headD ' ') hshape
      simpa using this
    rw [replaceAnd, if_pos hand]
    rw [hasOccur]
    simp only [List.isPrefixOf, hxa, Bool.false_and, Bool.false_or]
    apply ih
    -- hasOccur of the dropped tail, peeled from h three levels deep
    obtain ⟨-, h2⟩ := hasOccur_cons_false h
    have hrest : rest = 'n' :: 'd' :: rest3 := by
      have := congrArg List.tail hshape
      simpa using this
    subst hrest
    obtain ⟨-, h3⟩ := hasOccur_cons_false h2
    obtain ⟨-, h4⟩ := hasOccur_cons_false h3
    simpa using h4
  | case3 prev c rest hand ih =>
    intro h
    obtain ⟨h1, h2⟩ := hasOccur_cons_false h
    rw [replaceAnd, if_neg hand]
    rw [hasOccur]
    simp only [Bool.or_eq_false_iff]
    refine ⟨?_, ih h2⟩
    by_cases hcx : (x == c) = true
    · replace hcx : x = c := by simpa using hcx
      cases rest with
      | nil =>
        simp [replaceAnd, List.isPrefixOf]
      | cons d rest2 =>
        have hdy : (y == d) = false := by
          by_contra hcon
          have hyd : y = d := by
            have := Bool.of_not_eq_false hcon
            simpa using this
          rw [show ([x, y] : List Char).isPrefixOf (c :: d :: rest2) = true by
            simp only [List.isPrefixOf, Bool.and_eq_true, beq_iff_eq]
            exact ⟨hcx, hyd, trivial⟩] at h1
          simp at h1
        rw [replaceAnd]
        by_cases hc2 : andAt (some c) (d :: rest2) = true
        · rw [if_pos hc2]
          simp only [List.isPrefixOf, hya, Bool.and_eq_false_iff]
          right
          left
          trivial
        · rw [if_neg hc2]
          simp only [List.isPrefixOf, hdy, Bool.and_eq_false_iff]
          right
          left
          trivial
    · have hcxF : (x == c) = false := by
        cases hcc : (x == c) with
        | false => rfl
        | true => exact absurd hcc hcx
      simp only [List.isPrefixOf, hcxF, Bool.false_and]

lemma replaceAnd_no_match :
    ∀ (prev : Option Char) (l : List Char), hasAndMatch prev l = false →
      replaceAnd prev l = l := by
  intro prev l
  induction prev, l using replaceAnd.induct with
  | case1 prev =>
    intro h
    simp [replaceAnd]
  | case2 prev c rest hand ih =>
    intro h
    rw [hasAndMatch] at h
    rw [hand] at h
    simp at h
  | case3 prev c rest hand ih =>
    intro h
    rw [hasAndMatch] at h
    obtain ⟨-, h2⟩ := Bool.or_eq_false_iff.mp h
    rw [replaceAnd, if_neg hand, ih h2]

lemma wordChar_a : wordChar 'a' = true := by decide

lemma replaceAnd_nil (prev : Option Char) : replaceAnd prev [] = [] := by
  simp [replaceAnd]

lemma replaceAnd_cons (prev : Option Char) (c : Char) (rest : List Char) :
    replaceAnd prev (c :: rest) =
      if andAt prev (c :: rest) then '&' :: replaceAnd (some 'd') (rest.drop 2)
      else c :: replaceAnd (some c) rest := by
  rw [replaceAnd]

/-- After one pass of the word-bounded and replacement there is no
remaining match: a leftover and either lacked a boundary in the original
string (and its neighbourhood of word characters is unchanged in the
output), or would have required the replaced ampersand to sit directly
against a matched and, which the boundary conditions of the original
match rule out. -/
lemma replaceAnd_no_more :
    ∀ (n : Nat) (l : List Char), l.length ≤ n → ∀ prev : Option Char,
      hasAndMatch prev (replaceAnd prev l) = false := by
  intro n
  induction n with
  | zero =>
    intro l hl prev
    have hnil : l = [] := by
      cases l with
      | nil => rfl
      | cons c t => simp at hl
    subst hnil
    simp [replaceAnd_nil, hasAndMatch]
  | succ n ih =>
    intro l hl prev
    cases l with
    | nil => simp [replaceAnd_nil, hasAndMatch]
    | cons c rest =>
      by_cases hand : andAt prev (c :: rest) = true
      · -- a match at the head is replaced by an ampersand
        obtain ⟨rest3, hshape, hbl, hbr⟩ := andAt_decomp hand
        have hc : c = 'a' := by
          have := congrArg (fun l => l.headD ' ') hshape
          simpa using this
        have hrest : rest = 'n' :: 'd' :: rest3 := by
          have := congrArg List.tail hshape
          simpa using this
        rw [replaceAnd_cons, if_pos hand]
        have hdrop : rest.drop 2 = rest3 := by rw [hrest]; rfl
        rw [hdrop, hasAndMatch]
        simp only [Bool.or_eq_false_iff]
        refine ⟨andAt_false_head (by decide), ?_⟩
        -- after the ampersand: the match had a right boundary
        cases rest3 with
        | nil =>
          simp [replaceAnd_nil, hasAndMatch]
        | cons e t =>
          have hew : wordChar e = false := by
            simpa [bRight] using hbr
          have hea : e ≠ 'a' := by
            intro heq
            rw [heq, wordChar_a] at hew
            exact absurd hew (by decide)
          have hne : andAt (some 'd') (e :: t) = false := andAt_false_head hea
          rw [replaceAnd_cons, if_neg (by rw [hne]; exact Bool.false_ne_true)]
          rw [hasAndMatch]
          simp only [Bool.or_eq_false_iff]
          refine ⟨andAt_false_head hea, ?_⟩
          apply ih
          have : rest.length = t.length + 3 := by rw [hrest]; simp
          simp only [List.length_cons] at hl
          omega
      · -- no match at the head: the head character is kept
        rw [replaceAnd_cons, if_neg hand]
        rw [hasAndMatch]
        simp only [Bool.or_eq_false_iff]
        have htail : hasAndMatch (some c) (replaceAnd (some c) rest) = false := by
          apply ih
          simp only [List.length_cons] at hl
          omega
        refine ⟨?_, htail⟩
        -- suppose the kept head started a fresh match in the output
        by_cases hcontra : andAt prev (c :: replaceAnd (some c) rest) = true
        · exfalso
          obtain ⟨o2, hsh, hbl, hbr⟩ := andAt_decomp hcontra
          have hc : c = 'a' := by
            have := congrArg (fun l => l.headD ' ') hsh
            simpa using this
          have hO : replaceAnd (some c) rest = 'n' :: 'd' :: o2 := by
            have := congrArg List.tail hsh
            simpa using this
          subst hc
          -- peel the first output character: it must be a kept n
          cases rest with
          | nil => rw [replaceAnd_nil] at hO; exact absurd hO (by simp)
          | cons r1 rest2 =>
            rw [replaceAnd_cons] at hO
            by_cases ha1 : andAt (some 'a') (r1 :: rest2) = true
            · rw [if_pos ha1] at hO
              have : '&' = 'n' := by
                have := congrArg (fun l => l.headD ' ') hO
                simpa using this
              exact absurd this (by decide)
            · rw [if_neg ha1] at hO
              have hr1 : r1 = 'n' := by
                have := congrArg (fun l => l.headD ' ') hO
                simpa using this
              subst hr1
              have hO2 : replaceAnd (some 'n') rest2 = 'd' :: o2 := by
                have := congrArg List.tail hO
                simpa using this
              -- peel the second output character: a kept d
              cases rest2 with
              | nil => rw [replaceAnd_nil] at hO2; exact absurd hO2 (by simp)
              | cons r2 rest3 =>
                rw [replaceAnd_cons] at hO2
                by_cases ha2 : andAt (some 'n') (r2 :: rest3) = true
                · rw [if_pos ha2] at hO2
                  have : '&' = 'd' := by
                    have := congrArg (fun l => l.headD ' ') hO2
                    simpa using this
                  exact absurd this (by decide)
                · rw [if_neg ha2] at hO2
                  have hr2 : r2 = 'd' := by
                    have := congrArg (fun l => l.headD ' ') hO2
                    simpa using this
                  subst hr2
                  have hO3 : replaceAnd (some 'd') rest3 = o2 := by
                    have := congrArg List.tail hO2
                    simpa using this
                  -- so the original had and here with a left boundary;
                  -- since it was not a match, the right boundary failed
                  have hor : bRight rest3 = false := by
                    by_contra hcon
                    have hbr3 : bRight rest3 = true := by
                      cases hbb : bRight rest3 with
                      | false => exact absurd hbb hcon
                      | true => rfl
                    apply hand
                    unfold andAt
                    simp only [List.take, List.drop, hbl, hbr3]
                    simp
                  -- rest3 starts with a word character f
                  cases rest3 with
                  | nil => simp [bRight] at hor
                  | cons f t3 =>
                    have hfw : wordChar f = true := by
                      simpa [bRight] using hor
                    -- but then the output after d also starts with f,
                    -- contradicting the claimed right boundary
                    have hf : andAt (some 'd') (f :: t3) = false :=
                      andAt_false_bLeft (by simp [bLeft, wordChar])
                    rw [replaceAnd_cons, if_neg (by rw [hf]; exact Bool.false_ne_true)] at hO3
                    have : o2 = f :: replaceAnd (some f) t3 := hO3.symm
                    rw [this] at hbr
                    simp [bRight, hfw] at hbr
        · cases hcc : andAt prev (c :: replaceAnd (some c) rest) with
          | false => rfl
          | true => exact absurd hcc hcontra

/-- C9 (amended): prettifyTypeStr is idempotent on every input whose
first prettification contains no occurrence of the literal any-type
placeholder; rewriting can splice a new such placeholder together (see
the counterexample), but the placeholder rules for T, U and the
word-bounded ampersand can never create new matches of their own. -/
theorem prettifyTypeStr_idempotent (s : List Char)
    (h : hasOccur "<any type>".toList (prettifyTypeStr s) = false) :
    prettifyTypeStr (prettifyTypeStr s) = prettifyTypeStr s := by
  have hstep : prettifyTypeStr s =
      replaceAnd none
        (replaceAll "@b".toList "U".toList
          (replaceAll "@a".toList "T".toList
            (replaceAll "<any type>".toList "any".toList s))) := rfl
  set r2 := replaceAll "@a".toList "T".toList
    (replaceAll "<any type>".toList "any".toList s) with hr2
  set r3 := replaceAll "@b".toList "U".toList r2 with hr3
  have hout : prettifyTypeStr s = replaceAnd none r3 := rfl
  -- no occurrence of the at-a placeholder anywhere downstream of its pass
  have h2a : hasOccur ['@', 'a'] r2 = false :=
    replaceAll_two_fresh '@' 'a' 'T' (by decide) (by decide) _
  have h3a : hasOccur ['@', 'a'] r3 = false :=
    replaceAll_two_pres '@' 'a' '@' 'b' 'U' (by decide) (by decide) r2 h2a
  have h4a : hasOccur ['@', 'a'] (prettifyTypeStr s) = false := by
    rw [hout]
    exact replaceAnd_two_pres '@' 'a' (by decide) (by decide) none r3 h3a
  -- no occurrence of the at-b placeholder either
  have h3b : hasOccur ['@', 'b'] r3 = false :=
    replaceAll_two_fresh '@' 'b' 'U' (by decide) (by decide) r2
  have h4b : hasOccur ['@', 'b'] (prettifyTypeStr s) = false := by
    rw [hout]
    exact replaceAnd_two_pres '@' 'b' (by decide) (by decide) none r3 h3b
  -- and no remaining word-bounded and
  have h4c : hasAndMatch none (prettifyTypeStr s) = false := by
    rw [hout]
    exact replaceAnd_no_more r3.length r3 (le_refl _) none
  -- the four rewrite passes of the second application are all identities
  show replaceAnd none
    (replaceAll "@b".toList "U".toList
      (replaceAll "@a".toList "T".toList
        (replaceAll "<any type>".toList "any".toList (prettifyTypeStr s)))) =
    prettifyTypeStr s
  rw [replaceAll_no_occur "<any type>".toList "any".toList (prettifyTypeStr s) h]
  rw [replaceAll_no_occur "@a".toList "T".toList (prettifyTypeStr s) h4a]
  rw [replaceAll_no_occur "@b".toList "U".toList (prettifyTypeStr s) h4b]
  exact replaceAnd_no_match none _ h4c

/-- C9 counterexample: prettifyTypeStr is not idempotent on every string:
replacing the inner any-type placeholder of the input splices together a
new occurrence of the placeholder, which only a second pass rewrites. -/
theorem prettifyTypeStr_not_idempotent :
    prettifyTypeStr "<<any type> type>".toList = "<any type>".toList ∧
    prettifyTypeStr (prettifyTypeStr "<<any type> type>".toList) = "any".toList ∧
    prettifyTypeStr (prettifyTypeStr "<<any type> type>".toList) ≠
      prettifyTypeStr "<<any type> type>".toList := by
  have h1 : prettifyTypeStr "<<any type> type>".toList = "<any type>".toList := by
    simp [prettifyTypeStr, replaceAll, replaceAnd, andAt, bLeft, bRight, wordChar,
      List.isPrefixOf]
  have h2 : prettifyTypeStr "<any type>".toList = "any".toList := by
    simp [prettifyTypeStr, replaceAll, replaceAnd, andAt, bLeft, bRight, wordChar,
      List.isPrefixOf]
  refine ⟨h1, by rw [h1, h2], ?_⟩
  rw [h1, h2]
  decide

/-- Witness for C9 (amended): a generic function type string with both
placeholder markers and the word and; its first prettification contains no
any-type placeholder, and a second pass changes nothing. -/
theorem prettifyTypeStr_idempotent_witness :
    prettifyTypeStr (prettifyTypeStr "function<@a, @b>(@a and @b): <any type>".toList) =
      prettifyTypeStr "function<@a, @b>(@a and @b): <any type>".toList := by
  apply prettifyTypeStr_idempotent
  simp [prettifyTypeStr, replaceAll, replaceAnd, andAt, bLeft, bRight, wordChar,
    List.isPrefixOf, hasOccur]

end Teal

namespace TSDoc

/-- A tree-sitter point: row and column, 0-based. -/
structure Point where
  row : Nat
  column : Nat
deriving Repr, DecidableEq

/-- JS text.split on the newline character: the list of newline-free
segments, including empty ones; never empty. -/
def splitNl : List Char → List (List Char)
  | [] => [[]]
  | c :: rest =>
    if c = '\n' then [] :: splitNl rest
    else
      match splitNl rest with
      | [] => [[c]]
      | l :: ls => (c :: l) :: ls

/-- getExtent of tree-sitter-document.ts: the row/column extent of a
replacement text: one less than the number of split lines, and the length
of the last line. -/
def getExtent (text : List Char) : Point :=
  ⟨(splitNl text).length - 1, ((splitNl text).getLastD []).length⟩

/-- A tree-sitter edit delta (Parser.Edit). -/
structure EditDelta where
  startIndex : Nat
  oldEndIndex : Nat
  newEndIndex : Nat
  startPosition : Point
  oldEndPosition : Point
  newEndPosition : Point
deriving Repr, DecidableEq

/-- The delta computation of TreeSitterDocument.edit for one ranged edit:
the start/old-end offsets and positions come from the document; the
new end index is start + replacement length, and the new end position is
computed from the replacement extent. -/
def editDelta (startIndex oldEndIndex : Nat) (startPosition oldEndPosition : Point)
    (text : List Char) : EditDelta :=
  { startIndex := startIndex
    oldEndIndex := oldEndIndex
    newEndIndex := startIndex + text.length
    startPosition := startPosition
    oldEndPosition := oldEndPosition
    newEndPosition :=
      { row := startPosition.row + (getExtent text).row
        column :=
          if (getExtent text).row > 0 then (getExtent text).column
          else startPosition.column + (getExtent text).column } }

/-- The number of newline characters in a replacement text. -/
def nlCount (text : List Char) : Nat :=
  text.count '\n'

lemma splitNl_ne_nil : ∀ l : List Char, splitNl l ≠ [] := by
  intro l
  cases l with
  | nil => simp [splitNl]
  | cons c rest =>
    rw [splitNl]
    by_cases hc : c = '\n'
    · simp [hc]
    · rw [if_neg hc]
      cases h : splitNl rest with
      | nil => simp
      | cons a as => simp

lemma splitNl_length : ∀ l : List Char, (splitNl l).length = nlCount l + 1 := by
  intro l
  induction l with
  | nil => simp [splitNl, nlCount]
  | cons c rest ih =>
    rw [splitNl]
    by_cases hc : c = '\n'
    · rw [if_pos hc]
      simp only [List.length_cons, ih, nlCount, List.count_cons]
      simp [hc]
    · rw [if_neg hc]
      cases h : splitNl rest with
      | nil => exact absurd h (splitNl_ne_nil rest)
      | cons a as =>
        simp only [List.length_cons]
        rw [h] at ih
        simp only [List.length_cons] at ih
        have hcc : ((c == '\n') : Bool) = false := by simpa using hc
        simp only [nlCount, List.count_cons, hcc, Bool.false_eq_true, if_false] at *
        omega

lemma getLastD_irrel {α : Type} (l : List α) (h : l ≠ []) (d1 d2 : α) :
    l.getLastD d1 = l.getLastD d2 := by
  rw [List.getLastD_eq_getLast? , List.getLastD_eq_getLast? ]
  cases hg : l.getLast? with
  | none =>
    have hs := List.getLast?_isSome.mpr h
    rw [hg] at hs
    simp at hs
  | some b => rfl

/-- The last split segment is newline-free, and is a suffix of the text
preceded either by nothing (single-line text) or by a newline. -/
lemma splitNl_last_spec : ∀ text : List Char,
    ('\n' ∉ (splitNl text).getLastD []) ∧
    ((splitNl text).length = 1 → (splitNl text).getLastD [] = text) ∧
    (2 ≤ (splitNl text).length →
      ∃ pre, text = pre ++ '\n' :: ((splitNl text).getLastD [])) := by
  intro text
  induction text with
  | nil =>
    refine ⟨by simp [splitNl], by intro h; simp [splitNl], by intro h; simp [splitNl] at h⟩
  | cons c rest ih =>
    obtain ⟨ih1, ih2, ih3⟩ := ih
    by_cases hc : c = '\n'
    · subst hc
      have hsplit : splitNl ('\n' :: rest) = [] :: splitNl rest := by
        rw [splitNl]
        simp
      have hlast : (splitNl ('\n' :: rest)).getLastD [] = (splitNl rest).getLastD [] := by
        rw [hsplit]
        cases h : splitNl rest with
        | nil => exact absurd h (splitNl_ne_nil rest)
        | cons a as => simp [List.getLastD_cons]
      refine ⟨by rw [hlast]; exact ih1, ?_, ?_⟩
      · intro h
        rw [hsplit] at h
        simp only [List.length_cons] at h
        have : splitNl rest = [] := by
          cases hr : splitNl rest with
          | nil => rfl
          | cons a as => rw [hr] at h; simp at h
        exact absurd this (splitNl_ne_nil rest)
      · intro _
        rw [hlast]
        have hlen : 1 ≤ (splitNl rest).length := by
          cases hr : splitNl rest with
          | nil => exact absurd hr (splitNl_ne_nil rest)
          | cons a as => simp
        rcases Nat.lt_or_ge (splitNl rest).length 2 with h1 | h2
        · have : (splitNl rest).length = 1 := by omega
          rw [ih2 this]
          exact ⟨[], rfl⟩
        · obtain ⟨pre, hpre⟩ := ih3 h2
          exact ⟨'\n' :: pre, by rw [List.cons_append, ← hpre]⟩
    · have hsplit : ∃ h t, splitNl rest = h :: t ∧
          splitNl (c :: rest) = (c :: h) :: t := by
        cases hr : splitNl rest with
        | nil => exact absurd hr (splitNl_ne_nil rest)
        | cons a as =>
          refine ⟨a, as, rfl, ?_⟩
          rw [splitNl, if_neg hc, hr]
      obtain ⟨h, t, hrest, hcons⟩ := hsplit
      cases t with
      | nil =>
        -- single line continues: last segment is c :: h and h = rest
        have hone : (splitNl rest).length = 1 := by rw [hrest]; rfl
        have hh : h = rest := by
          have := ih2 hone
          rw [hrest] at this
          simpa using this
        have hsing : ∀ (z : List Char), ([z] : List (List Char)).getLastD [] = z := by
          intro z
          simp [List.getLastD_cons]
        refine ⟨?_, ?_, ?_⟩
        · rw [hcons, hsing]
          rw [hrest, hsing] at ih1
          intro hmem
          rcases List.mem_cons.mp hmem with rfl | hmem2
          · exact hc rfl
          · exact ih1 hmem2
        · intro _
          rw [hcons, hsing, hh]
        · intro hlen
          rw [hcons] at hlen
          simp at hlen
      | cons t1 t2 =>
        have hlast : (splitNl (c :: rest)).getLastD [] = (splitNl rest).getLastD [] := by
          rw [hcons, hrest]
          simp only [List.getLastD_cons]
        have hlen2 : 2 ≤ (splitNl rest).length := by rw [hrest]; simp
        refine ⟨by rw [hlast]; exact ih1, ?_, ?_⟩
        · intro hone
          rw [hcons] at hone
          simp at hone
        · intro _
          obtain ⟨pre, hpre⟩ := ih3 hlen2
          rw [hlast]
          exact ⟨c :: pre, by rw [List.cons_append, ← hpre]⟩

/-- C6: for every ranged edit, the delta handed to the previous tree has
newEndIndex = startIndex + replacement length; newEndPosition.row =
start row + number of newlines in the replacement; and its column is the
length of the replacement's newline-free last line when the replacement
spans multiple lines, else start column + replacement length. -/
theorem edit_delta_correct (startIndex oldEndIndex : Nat)
    (startPosition oldEndPosition : Point) (text : List Char) :
    (editDelta startIndex oldEndIndex startPosition oldEndPosition text).newEndIndex
        = startIndex + text.length
    ∧ (editDelta startIndex oldEndIndex startPosition oldEndPosition text).newEndPosition.row
        = startPosition.row + nlCount text
    ∧ ∃ lastLine : List Char, ('\n' ∉ lastLine) ∧
        (text = lastLine ∨ ∃ pre, text = pre ++ '\n' :: lastLine) ∧
        (editDelta startIndex oldEndIndex startPosition oldEndPosition text).newEndPosition.column
          = (if 0 < nlCount text then lastLine.length
             else startPosition.column + text.length) := by
  obtain ⟨hfree, hone, hmulti⟩ := splitNl_last_spec text
  have hrow : (getExtent text).row = nlCount text := by
    simp only [getExtent, splitNl_length]
    omega
  refine ⟨rfl, ?_, ?_⟩
  · show startPosition.row + (getExtent text).row = startPosition.row + nlCount text
    rw [hrow]
  · refine ⟨(splitNl text).getLastD [], hfree, ?_, ?_⟩
    · rcases Nat.lt_or_ge (nlCount text) 1 with h1 | h2
      · left
        have honelen : (splitNl text).length = 1 := by rw [splitNl_length]; omega
        exact (hone honelen).symm
      · right
        exact hmulti (by rw [splitNl_length]; omega)
    · have hcol : (editDelta startIndex oldEndIndex startPosition oldEndPosition
            text).newEndPosition.column
          = if (getExtent text).row > 0 then (getExtent text).column
            else startPosition.column + (getExtent text).column := rfl
      rw [hcol, hrow]
      by_cases hpos : 0 < nlCount text
      · rw [if_pos hpos, if_pos hpos]
        rfl
      · rw [if_neg hpos, if_neg hpos]
        have hz : nlCount text = 0 := by omega
        have hone1 : (splitNl text).length = 1 := by rw [splitNl_length, hz]
        show startPosition.column + ((splitNl text).getLastD []).length
          = startPosition.column + text.length
        rw [hone hone1]

/-- An LSP position: 0-based line and character. -/
structure Position where
  line : Nat
  character : Nat
deriving Repr, DecidableEq

/-- A named tree-sitter syntax node: type tag, source text, start and end
points, start and end byte indices, and the list of named children.
(The embedding keeps named nodes only, which is what namedChildren
exposes.) -/
inductive SNode where
  | mk (type : String) (text : String) (startPos endPos : Point)
       (startIndex endIndex : Nat) (children : List SNode)

def SNode.type : SNode → String
  | .mk t _ _ _ _ _ _ => t

def SNode.text : SNode → String
  | .mk _ s _ _ _ _ _ => s

def SNode.startPos : SNode → Point
  | .mk _ _ p _ _ _ _ => p

def SNode.endPos : SNode → Point
  | .mk _ _ _ p _ _ _ => p

def SNode.startIndex : SNode → Nat
  | .mk _ _ _ _ i _ _ => i

def SNode.endIndex : SNode → Nat
  | .mk _ _ _ _ _ i _ => i

def SNode.children : SNode → List SNode
  | .mk _ _ _ _ _ _ cs => cs

/-- positionAfterNode of tree-sitter-document.ts: the position lies
strictly after the node's end. -/
def positionAfterNode (pos : Position) (node : SNode) : Prop :=
  pos.line ≥ node.endPos.row ∧
  (pos.line > node.endPos.row ∨ pos.character > node.endPos.column)

instance (pos : Position) (node : SNode) : Decidable (positionAfterNode pos node) := by
  unfold positionAfterNode; infer_instance

mutual

/-- descendantsOfTypes of the intellisense module: the root itself when
its type matches, then for each named child not of an ignored type, its
matching descendants, in source order.  (The root is exempt from the
ignore check, as in the source.) -/
def descendantsOfTypes (type ignore : List String) : SNode → List SNode
  | .mk t s p q i j cs =>
    (if t ∈ type then [SNode.mk t s p q i j cs] else []) ++
    descendantsList type ignore cs

/-- The loop of descendantsOfTypes over the named children. -/
def descendantsList (type ignore : List String) : List SNode → List SNode
  | [] => []
  | c :: rest =>
    (if c.type ∈ ignore then [] else descendantsOfTypes type ignore c) ++
    descendantsList type ignore rest

end

/-- getSymbolParts of the intellisense module: the texts of the
identifier / simple_type descendants of the chain root, arguments
subtrees excluded, that lie strictly before the cursor (the cursor is
strictly after the node's end). -/
def getSymbolParts (node : SNode) (row column : Nat) : List String :=
  (descendantsOfTypes ["identifier", "simple_type"] ["arguments"] node).filterMap
    (fun x => if positionAfterNode ⟨row, column⟩ x then some x.text else none)

/-- Modelled from the claim's words, for comparison with the source: the
same traversal but keeping the descendants that START strictly before the
cursor column. -/
def claimSymbolParts (node : SNode) (row column : Nat) : List String :=
  (descendantsOfTypes ["identifier", "simple_type"] ["arguments"] node).filterMap
    (fun x => if x.startPos.column < column then some x.text else none)

mutual

/-- The amended claim as an independent recursive collector: in source
order, the text of every identifier / simple_type descendant of the chain
root that the cursor lies strictly after (its end strictly before the
cursor), never descending into arguments subtrees. -/
def specChainSegments (row column : Nat) : SNode → List String
  | .mk t s p q i j cs =>
    (if (t = "identifier" ∨ t = "simple_type") ∧
        positionAfterNode ⟨row, column⟩ (SNode.mk t s p q i j cs)
     then [s] else []) ++
    specSegmentsList row column cs

/-- The children part of specChainSegments. -/
def specSegmentsList (row column : Nat) : List SNode → List String
  | [] => []
  | c :: rest =>
    (if c.type = "arguments" then [] else specChainSegments row column c) ++
    specSegmentsList row column rest

end

/-- A single identifier node with the cursor inside it: it starts before
the cursor column but the cursor is not after its end. -/
def cexIdent : SNode :=
  .mk "identifier" "mno" ⟨0, 18⟩ ⟨0, 21⟩ 18 21 []

/-- C4 counterexample: with the cursor at column 20, inside the
identifier spanning columns 18-21, the code returns no segments (the
cursor is not strictly after the node's end), while the claim's
start-strictly-before-the-cursor-column reading would return the
identifier. -/
theorem getSymbolParts_counterexample :
    getSymbolParts cexIdent 0 20 = [] ∧
    claimSymbolParts cexIdent 0 20 = ["mno"] ∧
    ([] : List String) ≠ ["mno"] := by
  refine ⟨by decide, by decide, by decide⟩

/-- The modelled parse tree of the test input with a call and a trailing
member access: an index chain whose children are the function call (with
its arguments subtree) and the trailing identifier. -/
def exChainRoot : SNode :=
  .mk "index" "abc(def, ghi.jkl).mno" ⟨0, 0⟩ ⟨0, 21⟩ 0 21
    [.mk "function_call" "abc(def, ghi.jkl)" ⟨0, 0⟩ ⟨0, 17⟩ 0 17
      [.mk "identifier" "abc" ⟨0, 0⟩ ⟨0, 3⟩ 0 3 [],
       .mk "arguments" "(def, ghi.jkl)" ⟨0, 3⟩ ⟨0, 17⟩ 3 17
         [.mk "identifier" "def" ⟨0, 4⟩ ⟨0, 7⟩ 4 7 [],
          .mk "index" "ghi.jkl" ⟨0, 9⟩ ⟨0, 16⟩ 9 16
            [.mk "identifier" "ghi" ⟨0, 9⟩ ⟨0, 12⟩ 9 12 [],
             .mk "identifier" "jkl" ⟨0, 13⟩ ⟨0, 16⟩ 13 16 []]]],
     .mk "identifier" "mno" ⟨0, 18⟩ ⟨0, 21⟩ 18 21 []]

lemma parts_spec_main : ∀ N : Nat,
    (∀ node : SNode, sizeOf node ≤ N → ∀ row column : Nat,
      getSymbolParts node row column = specChainSegments row column node) ∧
    (∀ cs : List SNode, sizeOf cs ≤ N → ∀ row column : Nat,
      (descendantsList ["identifier", "simple_type"] ["arguments"] cs).filterMap
        (fun x => if positionAfterNode ⟨row, column⟩ x then some x.text else none)
        = specSegmentsList row column cs) := by
  intro N
  induction N with
  | zero =>
    constructor
    · intro node hsz
      exfalso
      cases node with
      | mk t s p q i j cs => simp at hsz
    · intro cs hsz
      exfalso
      cases cs with
      | nil => simp at hsz
      | cons a l => simp at hsz
  | succ N ih =>
    constructor
    · intro node hsz row column
      cases node with
      | mk t s p q i j cs =>
        have hcs : sizeOf cs ≤ N := by
          simp at hsz
          omega
        rw [getSymbolParts, descendantsOfTypes, specChainSegments]
        rw [List.filterMap_append]
        congr 1
        · by_cases ht : t ∈ (["identifier", "simple_type"] : List String)
          · rw [if_pos ht]
            have ht2 : t = "identifier" ∨ t = "simple_type" := by simpa using ht
            by_cases hp : positionAfterNode ⟨row, column⟩ (SNode.mk t s p q i j cs)
            · rw [if_pos ⟨ht2, hp⟩]
              simp only [List.filterMap, if_pos hp]
              rfl
            · rw [if_neg (fun hh => hp hh.2)]
              simp only [List.filterMap, if_neg hp]
          · rw [if_neg ht]
            rw [if_neg (fun hh => ht (by rcases hh.1 with h | h <;> simp [h]))]
            rfl
        · exact (ih.2 cs hcs row column)
    · intro cs hsz row column
      cases cs with
      | nil => rfl
      | cons c rest =>
        have hc : sizeOf c ≤ N := by
          simp at hsz
          omega
        have hrest : sizeOf rest ≤ N := by
          simp at hsz
          omega
        rw [descendantsList, specSegmentsList]
        rw [List.filterMap_append]
        congr 1
        · by_cases hig : c.type ∈ (["arguments"] : List String)
          · rw [if_pos hig, if_pos (by simpa using hig)]
            rfl
          · rw [if_neg hig, if_neg (by simpa using hig)]
            exact ih.1 c hc row column
        · exact ih.2 rest hrest row column

/-- C4 (amended): getSymbolParts returns, in source order, exactly the
texts of the identifier / simple_type descendants of the chain root whose
end lies strictly before the cursor (the cursor strictly after the node),
excluding identifiers inside call-argument subtrees; on the modelled tree
of the test input with cursor at column 22 the result is abc, mno. -/
theorem getSymbolParts_spec :
    (∀ (node : SNode) (row column : Nat),
      getSymbolParts node row column = specChainSegments row column node) ∧
    getSymbolParts exChainRoot 0 22 = ["abc", "mno"] := by
  constructor
  · intro node row column
    exact (parts_spec_main (sizeOf node)).1 node (le_refl _) row column
  · decide

/-- positionInNode of tree-sitter-document.ts: the position lies within
the node's range, endpoints included. -/
def positionInNode (pos : Position) (node : SNode) : Prop :=
  pos.line ≥ node.startPos.row ∧ pos.line ≤ node.endPos.row ∧
  ¬ ((pos.line = node.startPos.row ∧ pos.character < node.startPos.column) ∨
     (pos.line = node.endPos.row ∧ pos.character > node.endPos.column))

instance (pos : Position) (node : SNode) : Decidable (positionInNode pos node) := by
  unfold positionInNode; infer_instance

/-- nodeLength of tree-sitter-document.ts: end byte index minus start. -/
def nodeLength (node : SNode) : Nat :=
  node.endIndex - node.startIndex

lemma sizeOf_children_lt (node : SNode) : sizeOf node.children < sizeOf node := by
  cases node with
  | mk t s p q i j cs => simp [SNode.children]

lemma sizeOf_snode_pos (node : SNode) : 1 ≤ sizeOf node := by
  cases node with
  | mk t s p q i j cs => simp; omega

lemma sizeOf_snlist_pos (l : List SNode) : 1 ≤ sizeOf l := by
  cases l with
  | nil => simp
  | cons a t => simp only [List.cons.sizeOf_spec]; omega

mutual

/-- smallestDescendantForPosition of tree-sitter-document.ts, with the
later-sibling chain of the node passed explicitly (tree-sitter nodes
carry a nextNamedSibling pointer; in this embedding a node's siblings
are the remainder of its parent's child list).  A node without named
children is returned at once; otherwise the running minimum starts at
the node, is folded over the containing children (recursively), and
then over the containing later siblings. -/
def smallestDescendantAux (pos : Position) (node : SNode) (sibs : List SNode) : SNode :=
  if node.children.isEmpty then node
  else smallestLoop pos (smallestLoop pos node node.children) sibs
termination_by sizeOf node + sizeOf sibs
decreasing_by
  all_goals
    have h1 := sizeOf_children_lt node
    have h2 := sizeOf_snode_pos node
    omega

/-- One update loop of smallestDescendantForPosition: for each chain
element containing the position, recurse and keep the result when its
length is at most the current minimum's. -/
def smallestLoop (pos : Position) (m : SNode) (l : List SNode) : SNode :=
  match l with
  | [] => m
  | c :: rest =>
    smallestLoop pos
      (if positionInNode pos c ∧
          nodeLength (smallestDescendantAux pos c rest) ≤ nodeLength m
       then smallestDescendantAux pos c rest else m) rest
termination_by sizeOf l
decreasing_by
  all_goals simp only [List.cons.sizeOf_spec]
  all_goals omega

end

/-- getNodeAtPosition of tree-sitter-document.ts applies the query to
the root node, which has no siblings. -/
def smallestDescendantForPosition (root : SNode) (pos : Position) : SNode :=
  smallestDescendantAux pos root []

mutual

/-- The traversal candidates of smallestDescendantAux beyond the node
itself, in encounter order: for each containing child (and then each
containing later sibling), the child followed by its own candidates. -/
def restCands (pos : Position) (node : SNode) (sibs : List SNode) : List SNode :=
  if node.children.isEmpty then []
  else chainCands pos node.children ++ chainCands pos sibs
termination_by sizeOf node + sizeOf sibs
decreasing_by
  all_goals
    have h1 := sizeOf_children_lt node
    have h2 := sizeOf_snode_pos node
    omega

/-- Candidates contributed by one sibling chain. -/
def chainCands (pos : Position) (l : List SNode) : List SNode :=
  match l with
  | [] => []
  | c :: rest =>
    (if positionInNode pos c then c :: restCands pos c rest else []) ++
    chainCands pos rest
termination_by sizeOf l
decreasing_by
  all_goals simp only [List.cons.sizeOf_spec]
  all_goals omega

end

/-- The running-minimum update: keep the new candidate on ties. -/
def nodeMin (m c : SNode) : SNode :=
  if nodeLength c ≤ nodeLength m then c else m

/-- Folding the running minimum over a candidate list: the last
candidate attaining the minimum wins. -/
def lastMinFold (m : SNode) (l : List SNode) : SNode :=
  l.foldl nodeMin m

lemma nodeMin_assoc (m y z : SNode) : nodeMin m (nodeMin y z) = nodeMin (nodeMin m y) z := by
  unfold nodeMin
  split_ifs <;> first | rfl | (exfalso; omega)

lemma nodeMin_fold_inner (ys : List SNode) :
    ∀ m y : SNode, nodeMin m (lastMinFold y ys) = lastMinFold (nodeMin m y) ys := by
  induction ys with
  | nil => intro m y; rfl
  | cons z t ih =>
    intro m y
    show nodeMin m (lastMinFold (nodeMin y z) t) = lastMinFold (nodeMin (nodeMin m y) z) t
    rw [ih, nodeMin_assoc]

lemma lastMinFold_append (m : SNode) (l1 l2 : List SNode) :
    lastMinFold m (l1 ++ l2) = lastMinFold (lastMinFold m l1) l2 := by
  unfold lastMinFold
  rw [List.foldl_append]

lemma smallest_flatten_main (pos : Position) : ∀ K : Nat,
    (∀ (node : SNode) (sibs : List SNode), sizeOf node + sizeOf sibs ≤ K →
      smallestDescendantAux pos node sibs = lastMinFold node (restCands pos node sibs)) ∧
    (∀ (m : SNode) (l : List SNode), sizeOf l ≤ K →
      smallestLoop pos m l = lastMinFold m (chainCands pos l)) := by
  intro K
  induction K with
  | zero =>
    constructor
    · intro node sibs hsz
      have h1 := sizeOf_snode_pos node
      have h2 := sizeOf_snlist_pos sibs
      omega
    · intro m l hsz
      have h2 := sizeOf_snlist_pos l
      omega
  | succ K ih =>
    constructor
    · intro node sibs hsz
      have hch := sizeOf_children_lt node
      have hnp := sizeOf_snode_pos node
      have hsp := sizeOf_snlist_pos sibs
      rw [smallestDescendantAux, restCands]
      by_cases hemp : node.children.isEmpty = true
      · rw [if_pos hemp, if_pos hemp]
        rfl
      · rw [if_neg hemp, if_neg hemp]
        rw [ih.2 node node.children (by omega)]
        rw [ih.2 _ sibs (by omega)]
        rw [lastMinFold_append]
    · intro m l hsz
      cases l with
      | nil =>
        rw [smallestLoop, chainCands]
        rfl
      | cons c rest =>
        have hsz2 : sizeOf c + sizeOf rest ≤ K := by
          simp only [List.cons.sizeOf_spec] at hsz
          omega
        have hrest : sizeOf rest ≤ K := by
          have := sizeOf_snode_pos c
          omega
        rw [smallestLoop, chainCands]
        by_cases hin : positionInNode pos c
        · rw [if_pos hin]
          have haux := ih.1 c rest hsz2
          have hupd : (if positionInNode pos c ∧
              nodeLength (smallestDescendantAux pos c rest) ≤ nodeLength m
              then smallestDescendantAux pos c rest else m)
              = nodeMin m (smallestDescendantAux pos c rest) := by
            unfold nodeMin
            by_cases hle : nodeLength (smallestDescendantAux pos c rest) ≤ nodeLength m
            · rw [if_pos ⟨hin, hle⟩, if_pos hle]
            · rw [if_neg (fun hh => hle hh.2), if_neg hle]
          rw [hupd, ih.2 _ rest hrest, haux]
          rw [lastMinFold_append]
          show lastMinFold (nodeMin m (lastMinFold c (restCands pos c rest)))
              (chainCands pos rest)
            = lastMinFold (lastMinFold m (c :: restCands pos c rest)) (chainCands pos rest)
          congr 1
          show nodeMin m (lastMinFold c (restCands pos c rest))
            = lastMinFold (nodeMin m c) (restCands pos c rest)
          rw [nodeMin_fold_inner]
        · rw [if_neg hin]
          rw [if_neg (fun hh => hin hh.1)]
          rw [ih.2 m rest hrest]
          rfl

lemma smallest_eq_lastMin (root : SNode) (pos : Position) :
    smallestDescendantForPosition root pos = lastMinFold root (restCands pos root []) :=
  (smallest_flatten_main pos (sizeOf root + sizeOf ([] : List SNode))).1 root [] (le_refl _)

lemma lastMinFold_le (l : List SNode) :
    ∀ m : SNode, nodeLength (lastMinFold m l) ≤ nodeLength m ∧
      ∀ n ∈ l, nodeLength (lastMinFold m l) ≤ nodeLength n := by
  induction l with
  | nil =>
    intro m
    exact ⟨le_refl _, by simp⟩
  | cons c rest ih =>
    intro m
    have hfold : lastMinFold m (c :: rest) = lastMinFold (nodeMin m c) rest := rfl
    have hmc : nodeLength (nodeMin m c) ≤ nodeLength m ∧
        nodeLength (nodeMin m c) ≤ nodeLength c := by
      unfold nodeMin
      split_ifs with h
      · exact ⟨h, le_refl _⟩
      · exact ⟨le_refl _, by omega⟩
    obtain ⟨ih1, ih2⟩ := ih (nodeMin m c)
    refine ⟨by rw [hfold]; omega, ?_⟩
    intro n hn
    rcases List.mem_cons.mp hn with rfl | hn2
    · rw [hfold]
      omega
    · rw [hfold]
      exact ih2 n hn2

lemma lastMinFold_mem (l : List SNode) :
    ∀ m : SNode, lastMinFold m l = m ∨ lastMinFold m l ∈ l := by
  induction l with
  | nil => intro m; exact Or.inl rfl
  | cons c rest ih =>
    intro m
    have hfold : lastMinFold m (c :: rest) = lastMinFold (nodeMin m c) rest := rfl
    rcases ih (nodeMin m c) with h | h
    · rw [hfold, h]
      unfold nodeMin
      split_ifs
      · exact Or.inr (by simp)
      · exact Or.inl rfl
    · rw [hfold]
      exact Or.inr (List.mem_cons_of_mem c h)

lemma lastMinFold_latest (l : List SNode) :
    ∀ m : SNode,
      (lastMinFold m l = m ∧ ∀ n ∈ l, nodeLength m < nodeLength n) ∨
      (∃ l1 l2, l = l1 ++ lastMinFold m l :: l2 ∧
        ∀ n ∈ l2, nodeLength (lastMinFold m l) < nodeLength n) := by
  induction l with
  | nil => intro m; exact Or.inl ⟨rfl, by simp⟩
  | cons c rest ih =>
    intro m
    have hfold : lastMinFold m (c :: rest) = lastMinFold (nodeMin m c) rest := rfl
    by_cases hc : nodeLength c ≤ nodeLength m
    · have hmin : nodeMin m c = c := by unfold nodeMin; rw [if_pos hc]
      rcases ih (nodeMin m c) with ⟨h1, h2⟩ | ⟨l1, l2, heq, hall⟩
      · right
        refine ⟨[], rest, ?_, ?_⟩
        · rw [hfold, h1, hmin]
          simp
        · rw [hfold, h1, hmin]
          rw [hmin] at h2
          exact h2
      · right
        refine ⟨c :: l1, l2, ?_, ?_⟩
        · rw [hfold, List.cons_append, ← heq]
        · rw [hfold]
          exact hall
    · have hmin : nodeMin m c = m := by unfold nodeMin; rw [if_neg hc]
      rcases ih (nodeMin m c) with ⟨h1, h2⟩ | ⟨l1, l2, heq, hall⟩
      · left
        rw [hmin] at h1 h2
        constructor
        · rw [hfold, hmin]
          exact h1
        · intro n hn
          rcases List.mem_cons.mp hn with rfl | hn2
          · omega
          · exact h2 n hn2
      · right
        rw [hmin] at heq hall
        refine ⟨c :: l1, l2, ?_, ?_⟩
        · rw [hfold, hmin, List.cons_append, ← heq]
        · rw [hfold, hmin]
          exact hall

/-- Semantic containment: every position inside the child is inside the
parent (the tree-sitter nesting invariant of parsed documents, stated
on positions). -/
def ContainedIn (c node : SNode) : Prop :=
  ∀ pos : Position, positionInNode pos c → positionInNode pos node

/-- A well-nested tree: every named child lies inside its parent,
recursively. -/
inductive WellNested : SNode → Prop where
  | intro (node : SNode)
      (hc : ∀ c ∈ node.children, ContainedIn c node)
      (hw : ∀ c ∈ node.children, WellNested c) :
      WellNested node

/-- Descendant through named children (reflexive). -/
inductive Desc : SNode → SNode → Prop where
  | refl (n : SNode) : Desc n n
  | child {n c d : SNode} : c ∈ n.children → Desc c d → Desc n d

lemma wellNested_children {node : SNode} (h : WellNested node) :
    ∀ c ∈ node.children, ContainedIn c node ∧ WellNested c := by
  cases h with
  | intro _ hc hw => exact fun c hm => ⟨hc c hm, hw c hm⟩

lemma desc_posIn {pos : Position} :
    ∀ {n d : SNode}, Desc n d → WellNested n → positionInNode pos d →
      positionInNode pos n := by
  intro n d hdesc
  induction hdesc with
  | refl => exact fun _ h => h
  | child hmem hd ih =>
    intro hw hpd
    rename_i n2 c2 d2
    obtain ⟨hcont, hwc⟩ := wellNested_children hw c2 hmem
    exact hcont _ (ih hwc hpd)

lemma mem_chain_of_mem (pos : Position) {c d : SNode}
    (hpc : positionInNode pos c)
    (hIH : ∀ sibs : List SNode, d ∈ c :: restCands pos c sibs) :
    ∀ cs : List SNode, c ∈ cs → d ∈ chainCands pos cs := by
  intro cs hmem
  induction cs with
  | nil => simp at hmem
  | cons a t ih =>
    rw [chainCands]
    rcases List.mem_cons.mp hmem with rfl | hmem2
    · apply List.mem_append_left
      rw [if_pos hpc]
      exact hIH t
    · exact List.mem_append_right _ (ih hmem2)

lemma desc_mem_cands (pos : Position) :
    ∀ {node d : SNode}, Desc node d → WellNested node → positionInNode pos d →
      ∀ sibs : List SNode, d ∈ node :: restCands pos node sibs := by
  intro node d hdesc
  induction hdesc with
  | refl => intro _ _ sibs; exact List.mem_cons_self _ _
  | child hmem hd ih =>
    intro hw hpd sibs
    rename_i n2 c2 d2
    obtain ⟨hcont, hwc⟩ := wellNested_children hw c2 hmem
    have hpc : positionInNode pos c2 := desc_posIn hd hwc hpd
    have hmemd : d2 ∈ chainCands pos n2.children :=
      mem_chain_of_mem pos hpc (fun s => ih hwc hpd s) n2.children hmem
    have hne : ¬ n2.children.isEmpty = true := by
      cases hcc : n2.children with
      | nil => rw [hcc] at hmem; simp at hmem
      | cons a t => simp
    apply List.mem_cons_of_mem
    rw [restCands, if_neg hne]
    exact List.mem_append_left _ hmemd

/-- Left leaf of the tie-break example: identifier at columns 0-1. -/
def exLeafA : SNode :=
  .mk "identifier" "a" ⟨0, 0⟩ ⟨0, 1⟩ 0 1 []

/-- Right leaf of the tie-break example: identifier at columns 1-2. -/
def exLeafB : SNode :=
  .mk "identifier" "b" ⟨0, 1⟩ ⟨0, 2⟩ 1 2 []

/-- Root with two equal-length leaf children that both contain
position (0,1): ranges are inclusive at both ends, so the boundary
column lies in each. -/
def exTieRoot : SNode :=
  .mk "chunk" "ab" ⟨0, 0⟩ ⟨0, 2⟩ 0 2 [exLeafA, exLeafB]

lemma exTie_eval : smallestDescendantForPosition exTieRoot ⟨0, 1⟩ = exLeafB := by
  simp [smallestDescendantForPosition, smallestDescendantAux, smallestLoop,
    exTieRoot, exLeafA, exLeafB, SNode.children, SNode.startPos, SNode.endPos,
    SNode.startIndex, SNode.endIndex, positionInNode, nodeLength]

/-- C5 counterexample: at position (0,1) the root's two leaf children
both contain the position and have equal length 1; the leaf encountered
EARLIEST in the sibling traversal is exLeafA, yet
smallestDescendantForPosition returns exLeafB, the latest one, because
the running-minimum update uses a non-strict comparison.  This refutes
the claimed earliest-found tie-break. -/
theorem smallest_node_earliest_tiebreak_counterexample :
    positionInNode ⟨0, 1⟩ exLeafA ∧ positionInNode ⟨0, 1⟩ exLeafB ∧
    nodeLength exLeafA = nodeLength exLeafB ∧
    exTieRoot.children = [exLeafA, exLeafB] ∧
    smallestDescendantForPosition exTieRoot ⟨0, 1⟩ = exLeafB ∧
    exLeafB ≠ exLeafA := by
  refine ⟨by decide, by decide, by decide, rfl, exTie_eval, ?_⟩
  intro h
  have ht := congrArg SNode.text h
  simp [exLeafA, exLeafB, SNode.text] at ht

/-- C5 (amended): getNodeAtPosition's query equals the last-minimum fold
of the root followed by its traversal candidates in encounter order; the
result has minimal length among the root and all candidates, is the root
or one of the candidates, every descendant containing the position is a
candidate when the tree is well nested, and the tie-break keeps the
LATEST minimal candidate (every candidate after the returned one is
strictly longer) — not the earliest-found one. -/
theorem smallestDescendant_latest_min_spec (root : SNode) (pos : Position) :
    smallestDescendantForPosition root pos = lastMinFold root (restCands pos root []) ∧
    (∀ n ∈ root :: restCands pos root [],
      nodeLength (smallestDescendantForPosition root pos) ≤ nodeLength n) ∧
    (smallestDescendantForPosition root pos = root ∨
      smallestDescendantForPosition root pos ∈ restCands pos root []) ∧
    (WellNested root → ∀ d : SNode, Desc root d → positionInNode pos d →
      d ∈ root :: restCands pos root []) ∧
    ((smallestDescendantForPosition root pos = root ∧
        ∀ n ∈ restCands pos root [], nodeLength root < nodeLength n) ∨
      (∃ l1 l2, restCands pos root [] =
          l1 ++ smallestDescendantForPosition root pos :: l2 ∧
        ∀ n ∈ l2, nodeLength (smallestDescendantForPosition root pos) < nodeLength n)) := by
  have he := smallest_eq_lastMin root pos
  obtain ⟨hm, hall⟩ := lastMinFold_le (restCands pos root []) root
  refine ⟨he, ?_, ?_, ?_, ?_⟩
  · intro n hn
    rcases List.mem_cons.mp hn with rfl | hn2
    · rw [he]
      exact hm
    · rw [he]
      exact hall n hn2
  · rw [he]
    exact lastMinFold_mem _ root
  · intro hw d hd hp
    exact desc_mem_cands pos hd hw hp []
  · rw [he]
    exact lastMinFold_latest _ root

/-- C5 witness: the amended theorem applied to the concrete two-leaf
tree — the left leaf, which contains position (0,1), occurs among the
traversal candidates. -/
theorem smallestDescendant_latest_min_spec_witness :
    exLeafA ∈ exTieRoot :: restCands ⟨0, 1⟩ exTieRoot [] := by
  have hwA : WellNested exLeafA := by
    refine WellNested.intro _ ?_ ?_ <;>
      (intro c hc; simp [exLeafA, SNode.children] at hc)
  have hwB : WellNested exLeafB := by
    refine WellNested.intro _ ?_ ?_ <;>
      (intro c hc; simp [exLeafB, SNode.children] at hc)
  have hwn : WellNested exTieRoot := by
    refine WellNested.intro _ ?_ ?_
    · intro c hc
      simp [exTieRoot, SNode.children] at hc
      rcases hc with rfl | rfl
      · intro p hp
        simp [positionInNode, exLeafA, exTieRoot, SNode.startPos, SNode.endPos] at hp ⊢
        omega
      · intro p hp
        simp [positionInNode, exLeafB, exTieRoot, SNode.startPos, SNode.endPos] at hp ⊢
        omega
    · intro c hc
      simp [exTieRoot, SNode.children] at hc
      rcases hc with rfl | rfl
      · exact hwA
      · exact hwB
  exact (smallestDescendant_latest_min_spec exTieRoot ⟨0, 1⟩).2.2.2.1 hwn exLeafA
    (Desc.child (by simp [exTieRoot, SNode.children]) (Desc.refl _)) (by decide)

end TSDoc

namespace Diag

/-- Diagnostic severities used by validateTextDocument (part_005). -/
inductive Severity where
  | error : Severity
  | warning : Severity
deriving DecidableEq, Repr

/-- The crash marker of crashPattern, /stack traceback:/m: a plain
substring search. -/
def crashMarker : List Char :=
  "stack traceback:".toList

/-- A line matches warningCountPattern /^\d+ warning(s)?:$/ exactly when
it is a nonempty digit run followed by " warning:" or " warnings:"; the
greedy \d+ must stop at the space, so the takeWhile split is exact. -/
def isWarningHeader (l : List Char) : Bool :=
  let ds := l.takeWhile Char.isDigit
  !ds.isEmpty &&
    (l.drop ds.length == " warning:".toList || l.drop ds.length == " warnings:".toList)

/-- A line matches errorCountPattern /^\d+ error(s)?:$/ exactly when it
is a nonempty digit run followed by " error:" or " errors:". -/
def isErrorHeader (l : List Char) : Bool :=
  let ds := l.takeWhile Char.isDigit
  !ds.isEmpty &&
    (l.drop ds.length == " error:".toList || l.drop ds.length == " errors:".toList)

/-- Number.parseInt on an all-digit group. -/
def digitsToNat (ds : List Char) : Nat :=
  ds.foldl (fun acc c => acc * 10 + (c.toNat - 48)) 0

/-- The named groups of one errorMessagePattern match:
/(?<fileName>^.*?):(?<lineNumber>\d+):((?<columnNumber>\d+):)? (?<errorMessage>.+)$/ -/
structure ParsedLine where
  fileName : List Char
  lineNumber : Nat
  columnNumber : Option Nat
  errorMessage : List Char
deriving DecidableEq, Repr

/-- Match the pattern suffix `\d+:((?<columnNumber>\d+):)? (?<errorMessage>.+)$`
against the text after the ':' that ends the fileName group.  The greedy
\d+ runs cannot backtrack usefully (the character after them must be ':'
or ' ', never a digit), and when the optional column group fails the
space must follow the line number directly, so this case split is exactly
the regex's behaviour on a newline-free line. -/
def parseTail (rest : List Char) : Option (Nat × Option Nat × List Char) :=
  let ds := rest.takeWhile Char.isDigit
  if ds.isEmpty then none
  else
    match rest.drop ds.length with
    | ':' :: rest2 =>
      let ds2 := rest2.takeWhile Char.isDigit
      if !ds2.isEmpty then
        match rest2.drop ds2.length with
        | ':' :: ' ' :: msg =>
          if msg.isEmpty then none
          else some (digitsToNat ds, some (digitsToNat ds2), msg)
        | _ => none
      else
        match rest2 with
        | ' ' :: msg =>
          if msg.isEmpty then none
          else some (digitsToNat ds, none, msg)
        | _ => none
    | _ => none

/-- Scan the split points of the lazy fileName group in order: the
shortest prefix followed by ':' whose remainder matches the tail pattern
wins, as with the non-greedy .*? of errorMessagePattern. -/
def parseSplit (pre : List Char) : List Char → Option ParsedLine
  | [] => none
  | c :: rest =>
    if c = ':' then
      match parseTail rest with
      | some (ln, col, msg) => some ⟨pre, ln, col, msg⟩
      | none => parseSplit (pre ++ [c]) rest
    else parseSplit (pre ++ [c]) rest

/-- One exec of errorMessagePattern against a single split line (the
line holds no newline, so ^ anchors to its start and at most one match
exists). -/
def parseErrorLine (l : List Char) : Option ParsedLine :=
  parseSplit [] l

/-- JS String.prototype.replace with a string pattern: replace the first
occurrence only (an empty pattern prepends the replacement). -/
def replaceFirst (pat repl : List Char) : List Char → List Char
  | [] => if pat.isEmpty then repl else []
  | c :: rest =>
    if pat.isPrefixOf (c :: rest) then repl ++ (c :: rest).drop pat.length
    else c :: replaceFirst pat repl rest

/-- One produced diagnostic.  lineNumber is parsed then decremented as a
JS number, hence Int; a missing column group leaves columnNumber at the
Number.MAX_VALUE sentinel, modelled as none, else the parsed column is
decremented. -/
structure ModelDiag where
  severity : Severity
  line : Int
  col : Option Int
  message : List Char
deriving DecidableEq, Repr

/-- Build the diagnostic of one matched line: severity from the current
warning-section flag, 1-based line and column made 0-based, and the
resolved error path replaced by the document's file path inside the
message (execPattern of part_005).  resolvePath stands for
path.resolve(projectRoot, fileName). -/
def mkDiag (resolvePath : List Char → List Char) (filePath : List Char)
    (p : ParsedLine) (warningSection : Bool) : ModelDiag :=
  { severity := if warningSection then Severity.warning else Severity.error
    line := (p.lineNumber : Int) - 1
    col := p.columnNumber.map (fun c => (c : Int) - 1)
    message := replaceFirst (resolvePath p.fileName) filePath p.errorMessage }

/-- The line loop of validateTextDocument: a warning-count header turns
the warning section on, an error-count header turns it off, and every
other line contributes its match (if any) with the current severity. -/
def processLines (resolvePath : List Char → List Char) (filePath : List Char) :
    List (List Char) → Bool → List ModelDiag
  | [], _ => []
  | line :: rest, warningSection =>
    if isWarningHeader line then processLines resolvePath filePath rest true
    else if isErrorHeader line then processLines resolvePath filePath rest false
    else
      (match parseErrorLine line with
       | some p => [mkDiag resolvePath filePath p warningSection]
       | none => []) ++ processLines resolvePath filePath rest warningSection

/-- validateTextDocument of part_005 on the checker's stderr: a crash
marker anywhere throws (Except.error) with the raw stderr; otherwise the
stderr is split at newlines and folded through the warning-section
state machine starting outside a warning section.  The grouping of
diagnostics by document URI is external I/O and dropped; the produced
order is preserved. -/
def validate (resolvePath : List Char → List Char) (filePath : List Char)
    (stderr : List Char) : Except (List Char) (List ModelDiag) :=
  if Teal.hasOccur crashMarker stderr then Except.error stderr
  else Except.ok (processLines resolvePath filePath (TSDoc.splitNl stderr) false)

/-- The resolver of the concrete examples: projectRoot "/proj". -/
def exResolve (f : List Char) : List Char :=
  "/proj/".toList ++ f

/-- The document file path of the concrete examples. -/
def exFilePath : List Char :=
  "/doc/a.tl".toList

lemma ex_one_line :
    validate exResolve exFilePath "a.tl:3:5: some error".toList
      = Except.ok [⟨Severity.error, 2, some 4, "some error".toList⟩] := by
  rfl

lemma ex_sections :
    validate exResolve exFilePath
        "2 warnings:\na.tl:1:2: w1\n1 error:\na.tl:3:4: e1".toList
      = Except.ok [⟨Severity.warning, 0, some 1, "w1".toList⟩,
                   ⟨Severity.error, 2, some 3, "e1".toList⟩] := by
  rfl

lemma hasOccur_append (pat suf : List Char) :
    ∀ pre : List Char, Teal.hasOccur pat (pre ++ pat ++ suf) = true := by
  intro pre
  induction pre with
  | nil =>
    cases pat with
    | nil =>
      cases suf with
      | nil => rfl
      | cons c r => simp [Teal.hasOccur, List.isPrefixOf]
    | cons p ps =>
      simp only [List.nil_append, List.cons_append, Teal.hasOccur,
        Bool.or_eq_true, List.isPrefixOf_iff_prefix]
      left
      exact ⟨suf, by simp⟩
  | cons c t ih =>
    simp only [List.cons_append, Teal.hasOccur, Bool.or_eq_true]
    right
    exact ih

lemma error_header_not_warning (l : List Char) (h : isErrorHeader l = true) :
    isWarningHeader l = false := by
  simp only [isErrorHeader, Bool.and_eq_true, Bool.or_eq_true, beq_iff_eq] at h
  obtain ⟨h1, h2⟩ := h
  apply Bool.eq_false_iff.mpr
  intro hw
  simp only [isWarningHeader, Bool.and_eq_true, Bool.or_eq_true, beq_iff_eq] at hw
  obtain ⟨hw1, hw2⟩ := hw
  rcases h2 with h2 | h2 <;> rcases hw2 with hw2 | hw2 <;>
    (rw [h2] at hw2; exact absurd hw2 (by decide))

/-- C7: diagnostics translation and sectioning, confirmed against the
validateTextDocument of part_005: the single location line with no
active warning section yields one Error diagnostic at 0-based line 2,
column 4, message "some error"; a warning-count header line switches the
section flag on and an error-count header switches it back, location
lines in between producing Warning- resp. Error-severity diagnostics. -/
theorem diagnostics_translation_and_sectioning :
    validate exResolve exFilePath "a.tl:3:5: some error".toList
      = Except.ok [⟨Severity.error, 2, some 4, "some error".toList⟩] ∧
    (∀ (rp : List Char → List Char) (fp line : List Char)
        (rest : List (List Char)) (ws : Bool),
      isWarningHeader line = true →
        processLines rp fp (line :: rest) ws = processLines rp fp rest true) ∧
    (∀ (rp : List Char → List Char) (fp line : List Char)
        (rest : List (List Char)) (ws : Bool),
      isErrorHeader line = true →
        processLines rp fp (line :: rest) ws = processLines rp fp rest false) ∧
    (∀ (rp : List Char → List Char) (fp line : List Char)
        (rest : List (List Char)) (ws : Bool) (p : ParsedLine),
      isWarningHeader line = false → isErrorHeader line = false →
      parseErrorLine line = some p →
        processLines rp fp (line :: rest) ws
          = mkDiag rp fp p ws :: processLines rp fp rest ws) ∧
    (∀ (rp : List Char → List Char) (fp : List Char) (p : ParsedLine) (ws : Bool),
      (mkDiag rp fp p ws).severity
        = if ws then Severity.warning else Severity.error) ∧
    isWarningHeader "2 warnings:".toList = true ∧
    isErrorHeader "1 error:".toList = true ∧
    validate exResolve exFilePath
        "2 warnings:\na.tl:1:2: w1\n1 error:\na.tl:3:4: e1".toList
      = Except.ok [⟨Severity.warning, 0, some 1, "w1".toList⟩,
                   ⟨Severity.error, 2, some 3, "e1".toList⟩] := by
  refine ⟨ex_one_line, ?_, ?_, ?_, ?_, by rfl, by rfl, ex_sections⟩
  · intro rp fp line rest ws h
    simp [processLines, h]
  · intro rp fp line rest ws h
    simp [processLines, h, error_header_not_warning _ h]
  · intro rp fp line rest ws p h1 h2 h3
    simp [processLines, h1, h2, h3]
  · intro rp fp p ws
    rfl

/-- C7 witness: the sectioning step of the theorem applied at a concrete
warning-count header line. -/
theorem diagnostics_translation_and_sectioning_witness :
    processLines exResolve exFilePath
        ["2 warnings:".toList, "a.tl:1:2: w1".toList] false
      = processLines exResolve exFilePath ["a.tl:1:2: w1".toList] true :=
  diagnostics_translation_and_sectioning.2.1 exResolve exFilePath
    "2 warnings:".toList ["a.tl:1:2: w1".toList] false (by rfl)

/-- C8: crash short-circuit, confirmed: whenever the checker's stderr
contains the marker "stack traceback:" anywhere, validateTextDocument
throws with the raw stderr before parsing any location line, so no
diagnostics at all are produced from that output. -/
theorem crash_short_circuit (rp : List Char → List Char)
    (fp stderr pre suf : List Char)
    (h : stderr = pre ++ crashMarker ++ suf) :
    validate rp fp stderr = Except.error stderr ∧
    ∀ ds : List ModelDiag, validate rp fp stderr ≠ Except.ok ds := by
  have hocc : Teal.hasOccur crashMarker stderr = true := by
    rw [h]
    exact hasOccur_append crashMarker suf pre
  constructor
  · simp [validate, hocc]
  · intro ds hds
    simp [validate, hocc] at hds

/-- C8 witness: the theorem applied to a concrete crashing stderr. -/
theorem crash_short_circuit_witness :
    validate exResolve exFilePath "lua: err\nstack traceback:\n\tfoo".toList
      = Except.error "lua: err\nstack traceback:\n\tfoo".toList ∧
    "lua: err\nstack traceback:\n\tfoo".toList
      = "lua: err\n".toList ++ crashMarker ++ "\n\tfoo".toList :=
  ⟨(crash_short_circuit exResolve exFilePath
      "lua: err\nstack traceback:\n\tfoo".toList
      "lua: err\n".toList "\n\tfoo".toList (by rfl)).1, by rfl⟩

end Diag
